import Mathlib

/-!
Verification of the Notepad4 `Document` core (scintilla/src/Document.cxx)
against its natural-language specification.

The document text is modelled as a `List Nat` of bytes (each < 256 in real
runs; nothing here depends on that bound).  Byte positions are `Int` where
the source uses the signed `Sci::Position`, `Nat` where a claim restricts
attention to in-range positions.  `CellBuffer::CharAt` returns 0 for an
out-of-range index, which `List.getD _ 0` reproduces.
-/

namespace Notepad4

/-- Byte at `pos`; 0 when out of range, like `CellBuffer::CharAt`. -/
def byteAt (t : List Nat) (pos : Nat) : Nat := t.getD pos 0

/-- `CellBuffer` deletion primitive: remove `len` bytes starting at `pos`. -/
def deleteRange (t : List Nat) (pos len : Nat) : List Nat :=
  t.take pos ++ t.drop (pos + len)

/-- `CellBuffer` insertion primitive: insert the bytes `s` at `pos`. -/
def insertBytes (t : List Nat) (pos : Nat) (s : List Nat) : List Nat :=
  t.take pos ++ s ++ t.drop pos

/-- `Document::GetCharRange`: the `len` bytes starting at `pos`. -/
def textRange (t : List Nat) (pos len : Nat) : List Nat :=
  (t.drop pos).take len

/-- Count of line terminators in a byte list, a CR-LF pair counting once
(the line index splits at `\r`, `\n`, with `\r\n` one terminator). -/
def eolCount : List Nat → Nat
  | [] => 0
  | 13 :: 10 :: rest => 1 + eolCount rest
  | 13 :: rest => 1 + eolCount rest
  | 10 :: rest => 1 + eolCount rest
  | _ :: rest => eolCount rest

/-- `Document::LinesTotal`: one more than the number of line terminators. -/
def linesTotal (t : List Nat) : Nat := 1 + eolCount t

/-- One record of the undo history.
Modelled from the spec: the history lives in `CellBuffer` (not part of this
tree); per spec §3 an Action is {type ∈ {insert, remove, container},
position, length, payload bytes}.  The text gateways modelled here produce
only insert and remove actions. -/
inductive UndoAct where
  | ins (pos : Nat) (bytes : List Nat)
  | rem (pos : Nat) (bytes : List Nat)
deriving DecidableEq, Repr

/-- The watcher-visible events a text mutation emits (`NotifyModifyAttempt`
and the `NotifyModified` funnel with the flag kinds used by the gateways). -/
inductive Notice where
  | modifyAttempt
  | insertCheck (pos len : Nat)
  | beforeInsert (pos len : Nat)
  | insertText (pos len : Nat)
  | beforeDelete (pos len : Nat)
  | deleteText (pos len : Nat)
deriving DecidableEq, Repr

/-- The slice of `Document` state the mutation gateways touch.  `undoLog`
and `redoLog` model the `CellBuffer` history around the current point
(most recent first); `notices` records every (watcher, event) delivery in
order.  Watcher callbacks are modelled as pure event recording. -/
structure DocState where
  text : List Nat
  readOnly : Bool
  enteredModification : Nat
  enteredReadOnlyCount : Nat
  collectingUndo : Bool
  undoLog : List UndoAct
  redoLog : List UndoAct
  watchers : List Nat
  notices : List (Nat × Notice)
deriving Repr

/-- Deliver one event to every registered watcher, in insertion order. -/
def notifyAll (d : DocState) (n : Notice) : DocState :=
  { d with notices := d.notices ++ d.watchers.map fun w => (w, n) }

/-- `Document::CheckReadOnly`: on a read-only buffer outside a reentrant
notification, broadcast `NotifyModifyAttempt` (the counter is incremented
around the broadcast and restored, so its net value is unchanged). -/
def checkReadOnly (d : DocState) : DocState :=
  if d.readOnly ∧ d.enteredReadOnlyCount = 0 then notifyAll d .modifyAttempt else d

/-- `Document::DeleteChars(pos, len)`.  Bound guards come first, then the
read-only broadcast, the reentrance guard, and, on a writable buffer, the
BeforeDelete broadcast, the buffer edit (recording a remove action and
truncating the redo history when collecting undo), and the DeleteText
broadcast.  Returns `!cb.IsReadOnly()`. -/
def deleteChars (d : DocState) (pos len : Int) : Bool × DocState :=
  if pos < 0 then (false, d)
  else if len ≤ 0 then (false, d)
  else if pos + len > (d.text.length : Int) then (false, d)
  else
    let d := checkReadOnly d
    if d.enteredModification ≠ 0 then (false, d)
    else if d.readOnly then (false, d)
    else
      let p := pos.toNat
      let n := len.toNat
      let removed := textRange d.text p n
      let d := notifyAll d (.beforeDelete p n)
      let d := { d with
        text := deleteRange d.text p n
        undoLog := if d.collectingUndo then .rem p removed :: d.undoLog else d.undoLog
        redoLog := if d.collectingUndo then [] else d.redoLog }
      let d := notifyAll d (.deleteText p n)
      (true, d)

/-- `Document::InsertString(position, s, insertLength)`.  `s` carries the
`insertLength` bytes the caller passes (`insertLength = s.length` on every
real call; the `insertLength ≤ 0` guard is kept as the source writes it).
The position bound is modelled from the spec: `CellBuffer::InsertString`
(not part of this tree) asserts `position` lies inside [0, Length], so an
out-of-contract position is modelled as a rejected call. -/
def insertString (d : DocState) (position : Int) (s : List Nat)
    (insertLength : Int) : Int × DocState :=
  if insertLength ≤ 0 then (0, d)
  else
    let d := checkReadOnly d
    if d.readOnly then (0, d)
    else if d.enteredModification ≠ 0 then (0, d)
    else if position < 0 ∨ position > (d.text.length : Int) then (0, d)
    else
      let p := position.toNat
      let d := notifyAll d (.insertCheck p s.length)
      let d := notifyAll d (.beforeInsert p s.length)
      let d := { d with
        text := insertBytes d.text p s
        undoLog := if d.collectingUndo then .ins p s :: d.undoLog else d.undoLog
        redoLog := if d.collectingUndo then [] else d.redoLog }
      let d := notifyAll d (.insertText p s.length)
      (insertLength, d)

/-- `Document::Undo`.  Returns -1 unless the reentrance guard is clear,
undo collection is on and the buffer is writable; otherwise reverses the
most recent action (`cb.StartUndo` group size modelled from the spec as one
action per call; the source iterates the same per-action body).  An undone
insertion notifies as a deletion and vice versa; the returned position is
`action.position` for an undone insertion and `action.position + lenData`
for an undone removal, as in the source's coalescedRemove handling of a
single step. -/
def undo (d : DocState) : Int × DocState :=
  let d := checkReadOnly d
  if d.enteredModification = 0 ∧ d.collectingUndo then
    if d.readOnly then (-1, d)
    else
      match d.undoLog with
      | [] => (-1, d)
      | act :: rest =>
        match act with
        | .ins p bytes =>
          let d := notifyAll d (.beforeDelete p bytes.length)
          let d := { d with
            text := deleteRange d.text p bytes.length
            undoLog := rest
            redoLog := act :: d.redoLog }
          let d := notifyAll d (.deleteText p bytes.length)
          ((p : Int), d)
        | .rem p bytes =>
          let d := notifyAll d (.beforeInsert p bytes.length)
          let d := { d with
            text := insertBytes d.text p bytes
            undoLog := rest
            redoLog := act :: d.redoLog }
          let d := notifyAll d (.insertText p bytes.length)
          (((p : Int) + bytes.length), d)
  else (-1, d)

/-- `Document::Redo`: replay the most recently undone action (group size
one, as for `undo`).  Returned position is `action.position + lenData` for
a replayed insertion, `action.position` for a replayed removal. -/
def redo (d : DocState) : Int × DocState :=
  let d := checkReadOnly d
  if d.enteredModification = 0 ∧ d.collectingUndo then
    if d.readOnly then (-1, d)
    else
      match d.redoLog with
      | [] => (-1, d)
      | act :: rest =>
        match act with
        | .ins p bytes =>
          let d := notifyAll d (.beforeInsert p bytes.length)
          let d := { d with
            text := insertBytes d.text p bytes
            undoLog := act :: d.undoLog
            redoLog := rest }
          let d := notifyAll d (.insertText p bytes.length)
          (((p : Int) + bytes.length), d)
        | .rem p bytes =>
          let d := notifyAll d (.beforeDelete p bytes.length)
          let d := { d with
            text := deleteRange d.text p bytes.length
            undoLog := act :: d.undoLog
            redoLog := rest }
          let d := notifyAll d (.deleteText p bytes.length)
          ((p : Int), d)
  else (-1, d)

/-- A top-level mutation request, for quantifying over edit sequences. -/
inductive Mutation where
  | insert (position : Int) (s : List Nat)
  | delete (pos len : Int)
deriving Repr

/-- Apply one mutation through the corresponding gateway, keeping only the
resulting state. -/
def applyMutation (d : DocState) (m : Mutation) : DocState :=
  match m with
  | .insert position s => (insertString d position s s.length).2
  | .delete pos len => (deleteChars d pos len).2

/-- Apply a sequence of mutations left to right. -/
def applyMutations (d : DocState) (ms : List Mutation) : DocState :=
  ms.foldl applyMutation d

/-- Iterate `undo`, keeping only the state. -/
def undoTimes (d : DocState) : Nat → DocState
  | 0 => d
  | n + 1 => undoTimes (undo d).2 n

/-- The inverse text edit an undo of one action performs. -/
def actInv (act : UndoAct) (t : List Nat) : List Nat :=
  match act with
  | .ins p b => deleteRange t p b.length
  | .rem p b => insertBytes t p b

/-- Steady state for the gateways: buffer writable, no reentrant
modification in flight, undo collection on. -/
def Steady (d : DocState) : Prop :=
  d.readOnly = false ∧ d.enteredModification = 0 ∧ d.collectingUndo = true

lemma checkReadOnly_not_readOnly {d : DocState} (h : d.readOnly = false) :
    checkReadOnly d = d := by
  simp [checkReadOnly, h]

lemma deleteRange_insertBytes (t s : List Nat) (p : Nat) (h : p ≤ t.length) :
    deleteRange (insertBytes t p s) p s.length = t := by
  unfold deleteRange insertBytes
  have hl : (t.take p).length = p := by
    rw [List.length_take]; omega
  rw [List.append_assoc]
  have htake : (t.take p ++ (s ++ t.drop p)).take p = t.take p := by
    rw [List.take_append_eq_append_take, hl, Nat.sub_self, List.take_zero,
      List.append_nil, List.take_take, Nat.min_self]
  have hdrop : (t.take p ++ (s ++ t.drop p)).drop (p + s.length) = t.drop p := by
    rw [List.drop_append_eq_append_drop, hl,
      List.drop_eq_nil_of_le (le_trans (le_of_eq hl) (Nat.le_add_right p s.length)),
      List.nil_append]
    have hps : p + s.length - p = s.length := by omega
    rw [hps, List.drop_left]
  rw [htake, hdrop, List.take_append_drop]

lemma insertBytes_deleteRange (t : List Nat) (p n : Nat) (h : p + n ≤ t.length) :
    insertBytes (deleteRange t p n) p (textRange t p n) = t := by
  unfold deleteRange insertBytes textRange
  have hl : (t.take p).length = p := by
    rw [List.length_take]; omega
  have htake : (t.take p ++ t.drop (p + n)).take p = t.take p := by
    rw [List.take_append_eq_append_take, hl, Nat.sub_self, List.take_zero,
      List.append_nil, List.take_take, Nat.min_self]
  have hdrop : (t.take p ++ t.drop (p + n)).drop p = t.drop (p + n) := by
    rw [List.drop_append_eq_append_drop, hl, Nat.sub_self, List.drop_zero,
      List.drop_eq_nil_of_le (le_of_eq hl), List.nil_append]
  rw [htake, hdrop, List.append_assoc]
  have hmid : (t.drop p).take n ++ t.drop (p + n) = t.drop p := by
    have hdd : t.drop (p + n) = (t.drop p).drop n := by
      rw [List.drop_drop, Nat.add_comm]
    rw [hdd, List.take_append_drop]
  rw [hmid, List.take_append_drop]

lemma undo_push {d : DocState} {act : UndoAct} {L : List UndoAct}
    (h : Steady d) (hl : d.undoLog = act :: L) :
    (undo d).2.text = actInv act d.text ∧ (undo d).2.undoLog = L ∧
      Steady (undo d).2 := by
  obtain ⟨h1, h2, h3⟩ := h
  cases act with
  | ins p b =>
    simp [undo, checkReadOnly_not_readOnly h1, hl, h1, h2, h3, notifyAll,
      actInv, Steady]
  | rem p b =>
    simp [undo, checkReadOnly_not_readOnly h1, hl, h1, h2, h3, notifyAll,
      actInv, Steady]

/-- Under `Steady`, each gateway call either leaves the state entirely
unchanged (a guard rejection) or records exactly one action whose undo
restores the previous text. -/
lemma applyMutation_cases (d : DocState) (h : Steady d) (m : Mutation) :
    applyMutation d m = d ∨
    (∃ act, (applyMutation d m).undoLog = act :: d.undoLog ∧
      actInv act (applyMutation d m).text = d.text ∧
      Steady (applyMutation d m)) := by
  obtain ⟨h1, h2, h3⟩ := h
  cases m with
  | insert position s =>
    by_cases hg : (s.length : Int) ≤ 0
    · left
      simp [applyMutation, insertString, hg]
    · by_cases hp : position < 0 ∨ position > (d.text.length : Int)
      · left
        simp [applyMutation, insertString, checkReadOnly_not_readOnly h1,
          h1, h2, hg, hp]
      · right
        have hp2 := hp
        push_neg at hp2
        have hple : position.toNat ≤ d.text.length := by omega
        refine ⟨.ins position.toNat s, ?_, ?_, ?_⟩
        · simp [applyMutation, insertString, checkReadOnly_not_readOnly h1,
            h1, h2, h3, hg, hp, notifyAll]
        · simp only [applyMutation, insertString, checkReadOnly_not_readOnly h1]
          simp [h1, h2, h3, hg, hp, notifyAll, actInv]
          exact deleteRange_insertBytes d.text s position.toNat hple
        · simp [applyMutation, insertString, Steady,
            checkReadOnly_not_readOnly h1, h1, h2, h3, hg, hp, notifyAll]
  | delete pos len =>
    by_cases hg1 : pos < 0
    · left
      simp [applyMutation, deleteChars, hg1]
    · by_cases hg2 : len ≤ 0
      · left
        simp [applyMutation, deleteChars, hg1, hg2]
      · by_cases hg3 : pos + len > (d.text.length : Int)
        · left
          simp [applyMutation, deleteChars, hg1, hg2, hg3]
        · right
          have hple : pos.toNat + len.toNat ≤ d.text.length := by omega
          refine ⟨.rem pos.toNat (textRange d.text pos.toNat len.toNat), ?_, ?_, ?_⟩
          · simp [applyMutation, deleteChars, checkReadOnly_not_readOnly h1,
              h1, h2, h3, hg1, hg2, hg3, notifyAll]
          · simp only [applyMutation, deleteChars, checkReadOnly_not_readOnly h1]
            simp [h1, h2, h3, hg1, hg2, hg3, notifyAll, actInv]
            exact insertBytes_deleteRange d.text pos.toNat len.toNat hple
          · simp [applyMutation, deleteChars, Steady,
              checkReadOnly_not_readOnly h1, h1, h2, h3, hg1, hg2, hg3, notifyAll]

lemma undoTimes_add (d : DocState) (a b : Nat) :
    undoTimes d (a + b) = undoTimes (undoTimes d a) b := by
  induction a generalizing d with
  | zero => simp [undoTimes]
  | succ n ih =>
    have : n + 1 + b = (n + b) + 1 := by omega
    rw [this]
    simp only [undoTimes]
    exact ih (undo d).2

/-- Applying any mutation sequence from a steady state and then undoing the
recorded actions restores the text, the undo log and steadiness. -/
lemma applyMutations_roundTrip (ms : List Mutation) (d : DocState)
    (h : Steady d) :
    Steady (applyMutations d ms) ∧
    d.undoLog.length ≤ (applyMutations d ms).undoLog.length ∧
    (undoTimes (applyMutations d ms)
        ((applyMutations d ms).undoLog.length - d.undoLog.length)).text = d.text ∧
    (undoTimes (applyMutations d ms)
        ((applyMutations d ms).undoLog.length - d.undoLog.length)).undoLog = d.undoLog ∧
    Steady (undoTimes (applyMutations d ms)
        ((applyMutations d ms).undoLog.length - d.undoLog.length)) := by
  induction ms generalizing d with
  | nil =>
    simp [applyMutations, undoTimes, h]
  | cons m rest ih =>
    have hstep := applyMutation_cases d h m
    have happ : applyMutations d (m :: rest) = applyMutations (applyMutation d m) rest := by
      simp [applyMutations]
    cases hstep with
    | inl heq =>
      rw [happ, heq]
      exact ih d h
    | inr hex =>
      obtain ⟨act, hlog, hinv, hsteady⟩ := hex
      set d1 := applyMutation d m with hd1
      obtain ⟨ih1, ih2, ih3, ih4, ih5⟩ := ih d1 hsteady
      rw [happ]
      have hlen1 : d1.undoLog.length = d.undoLog.length + 1 := by
        rw [hlog]; simp
      set e := applyMutations d1 rest with he
      have hk : e.undoLog.length - d.undoLog.length =
          (e.undoLog.length - d1.undoLog.length) + 1 := by omega
      rw [hk, undoTimes_add]
      set r := undoTimes e (e.undoLog.length - d1.undoLog.length) with hr
      have hrlog : r.undoLog = act :: d.undoLog := by rw [ih4, hlog]
      have hpush := undo_push ih5 hrlog
      obtain ⟨hp1, hp2, hp3⟩ := hpush
      have hone : undoTimes r 1 = (undo r).2 := by simp [undoTimes]
      refine ⟨ih1, by omega, ?_, ?_, ?_⟩
      · rw [hone, hp1, ih3, hinv]
      · rw [hone, hp2]
      · rw [hone]; exact hp3

/-- C1: for any document in the steady state with an empty history and any
sequence of top-level insert/delete mutations, undoing every recorded
action restores Length, LinesTotal and the byte-for-byte content to their
pre-sequence values. -/
theorem undo_round_trip (ms : List Mutation) (d : DocState)
    (h : Steady d) (h0 : d.undoLog = []) :
    (undoTimes (applyMutations d ms) (applyMutations d ms).undoLog.length).text
        = d.text ∧
    (undoTimes (applyMutations d ms) (applyMutations d ms).undoLog.length).text.length
        = d.text.length ∧
    linesTotal (undoTimes (applyMutations d ms) (applyMutations d ms).undoLog.length).text
        = linesTotal d.text := by
  obtain ⟨-, -, htext, -, -⟩ := applyMutations_roundTrip ms d h
  rw [h0] at htext
  simp only [List.length_nil, Nat.sub_zero] at htext
  exact ⟨htext, by rw [htext], by rw [htext]⟩

/-- A concrete steady document for witnessing the gateway theorems. -/
def sampleDoc : DocState :=
  { text := [104, 105, 10, 119], readOnly := false, enteredModification := 0,
    enteredReadOnlyCount := 0, collectingUndo := true, undoLog := [],
    redoLog := [], watchers := [0, 1], notices := [] }

/-- Witness for `undo_round_trip` at a concrete document and edit list. -/
theorem undo_round_trip_witness :
    Steady sampleDoc ∧ sampleDoc.undoLog = [] ∧
    ((undoTimes (applyMutations sampleDoc [.insert 2 [97, 98], .delete 1 2, .insert 0 [13, 10]])
          (applyMutations sampleDoc [.insert 2 [97, 98], .delete 1 2, .insert 0 [13, 10]]).undoLog.length).text
        = sampleDoc.text ∧
      (undoTimes (applyMutations sampleDoc [.insert 2 [97, 98], .delete 1 2, .insert 0 [13, 10]])
          (applyMutations sampleDoc [.insert 2 [97, 98], .delete 1 2, .insert 0 [13, 10]]).undoLog.length).text.length
        = sampleDoc.text.length ∧
      linesTotal (undoTimes (applyMutations sampleDoc [.insert 2 [97, 98], .delete 1 2, .insert 0 [13, 10]])
          (applyMutations sampleDoc [.insert 2 [97, 98], .delete 1 2, .insert 0 [13, 10]]).undoLog.length).text
        = linesTotal sampleDoc.text) :=
  ⟨⟨rfl, rfl, rfl⟩, rfl,
    undo_round_trip [.insert 2 [97, 98], .delete 1 2, .insert 0 [13, 10]]
      sampleDoc ⟨rfl, rfl, rfl⟩ rfl⟩

/-- The document-state projection that excludes the outbound notification
stream: text, both history sides, and the scalar guards. -/
def docCore (d : DocState) :
    List Nat × List UndoAct × List UndoAct × Bool × Bool × Nat × Nat × List Nat :=
  (d.text, d.undoLog, d.redoLog, d.readOnly, d.collectingUndo,
    d.enteredModification, d.enteredReadOnlyCount, d.watchers)

lemma docCore_notifyAll (d : DocState) (n : Notice) :
    docCore (notifyAll d n) = docCore d := by
  simp [docCore, notifyAll]

lemma docCore_checkReadOnly (d : DocState) :
    docCore (checkReadOnly d) = docCore d := by
  unfold checkReadOnly
  split
  · exact docCore_notifyAll d _
  · rfl

@[simp] lemma checkReadOnly_text (d : DocState) :
    (checkReadOnly d).text = d.text := by
  unfold checkReadOnly notifyAll; split <;> rfl

@[simp] lemma checkReadOnly_readOnly (d : DocState) :
    (checkReadOnly d).readOnly = d.readOnly := by
  unfold checkReadOnly notifyAll; split <;> rfl

@[simp] lemma checkReadOnly_enteredModification (d : DocState) :
    (checkReadOnly d).enteredModification = d.enteredModification := by
  unfold checkReadOnly notifyAll; split <;> rfl

@[simp] lemma checkReadOnly_enteredReadOnlyCount (d : DocState) :
    (checkReadOnly d).enteredReadOnlyCount = d.enteredReadOnlyCount := by
  unfold checkReadOnly notifyAll; split <;> rfl

@[simp] lemma checkReadOnly_collectingUndo (d : DocState) :
    (checkReadOnly d).collectingUndo = d.collectingUndo := by
  unfold checkReadOnly notifyAll; split <;> rfl

@[simp] lemma checkReadOnly_undoLog (d : DocState) :
    (checkReadOnly d).undoLog = d.undoLog := by
  unfold checkReadOnly notifyAll; split <;> rfl

@[simp] lemma checkReadOnly_redoLog (d : DocState) :
    (checkReadOnly d).redoLog = d.redoLog := by
  unfold checkReadOnly notifyAll; split <;> rfl

@[simp] lemma checkReadOnly_watchers (d : DocState) :
    (checkReadOnly d).watchers = d.watchers := by
  unfold checkReadOnly notifyAll; split <;> rfl

lemma checkReadOnly_notices_of_readOnly {d : DocState} (hro : d.readOnly = true)
    (hcnt : d.enteredReadOnlyCount = 0) :
    (checkReadOnly d).notices =
      d.notices ++ d.watchers.map fun w => (w, Notice.modifyAttempt) := by
  simp [checkReadOnly, notifyAll, hro, hcnt]

/-- C3: on a read-only document (outside a reentrant read-only
notification), every mutation gateway broadcasts `NotifyModifyAttempt` to
every watcher, returns its falsy result (0 / false / -1 / -1), and leaves
the buffer and history unchanged.  The gateways are total functions, so no
exception escapes. -/
theorem readOnly_mutations_rejected (d : DocState) (position pos len : Int)
    (s : List Nat) (hro : d.readOnly = true) (hcnt : d.enteredReadOnlyCount = 0)
    (hs : 0 < (s.length : Int)) (hpos : 0 ≤ pos) (hlen : 0 < len)
    (hbound : pos + len ≤ (d.text.length : Int)) :
    ((insertString d position s s.length).1 = 0 ∧
      docCore (insertString d position s s.length).2 = docCore d ∧
      ∀ w ∈ d.watchers,
        (w, Notice.modifyAttempt) ∈ (insertString d position s s.length).2.notices) ∧
    ((deleteChars d pos len).1 = false ∧
      docCore (deleteChars d pos len).2 = docCore d ∧
      ∀ w ∈ d.watchers, (w, Notice.modifyAttempt) ∈ (deleteChars d pos len).2.notices) ∧
    ((undo d).1 = -1 ∧ docCore (undo d).2 = docCore d ∧
      ∀ w ∈ d.watchers, (w, Notice.modifyAttempt) ∈ (undo d).2.notices) ∧
    ((redo d).1 = -1 ∧ docCore (redo d).2 = docCore d ∧
      ∀ w ∈ d.watchers, (w, Notice.modifyAttempt) ∈ (redo d).2.notices) := by
  have hg : ¬((s.length : Int) ≤ 0) := by omega
  have hg1 : ¬(pos < 0) := by omega
  have hg2 : ¬(len ≤ 0) := by omega
  have hg3 : ¬(pos + len > (d.text.length : Int)) := by omega
  have hnts := checkReadOnly_notices_of_readOnly hro hcnt
  have hmem : ∀ w ∈ d.watchers,
      (w, Notice.modifyAttempt) ∈
        d.notices ++ d.watchers.map fun x => (x, Notice.modifyAttempt) := by
    intro w hw
    exact List.mem_append_right _ (List.mem_map.mpr ⟨w, hw, rfl⟩)
  refine ⟨?_, ?_, ?_, ?_⟩
  · refine ⟨?_, ?_, ?_⟩
    · simp [insertString, hro, hg]
    · simp [insertString, hro, hg, docCore_checkReadOnly]
    · intro w hw
      simpa [insertString, hro, hg, hnts] using hmem w hw
  · refine ⟨?_, ?_, ?_⟩
    · by_cases hem : d.enteredModification = 0 <;>
        simp [deleteChars, hro, hg1, hg2, hg3, hem]
    · by_cases hem : d.enteredModification = 0 <;>
        simp [deleteChars, hro, hg1, hg2, hg3, hem, docCore_checkReadOnly]
    · intro w hw
      by_cases hem : d.enteredModification = 0 <;>
        simpa [deleteChars, hro, hg1, hg2, hg3, hem, hnts] using hmem w hw
  · refine ⟨?_, ?_, ?_⟩
    · by_cases hem : d.enteredModification = 0 ∧ d.collectingUndo = true <;>
        simp [undo, hro, hem]
    · by_cases hem : d.enteredModification = 0 ∧ d.collectingUndo = true <;>
        simp [undo, hro, hem, docCore_checkReadOnly]
    · intro w hw
      by_cases hem : d.enteredModification = 0 ∧ d.collectingUndo = true <;>
        simpa [undo, hro, hem, hnts] using hmem w hw
  · refine ⟨?_, ?_, ?_⟩
    · by_cases hem : d.enteredModification = 0 ∧ d.collectingUndo = true <;>
        simp [redo, hro, hem]
    · by_cases hem : d.enteredModification = 0 ∧ d.collectingUndo = true <;>
        simp [redo, hro, hem, docCore_checkReadOnly]
    · intro w hw
      by_cases hem : d.enteredModification = 0 ∧ d.collectingUndo = true <;>
        simpa [redo, hro, hem, hnts] using hmem w hw

/-- A concrete read-only document for witnessing `readOnly_mutations_rejected`. -/
def sampleReadOnlyDoc : DocState :=
  { text := [104, 105, 10, 119], readOnly := true, enteredModification := 0,
    enteredReadOnlyCount := 0, collectingUndo := true,
    undoLog := [.ins 0 [104]], redoLog := [.ins 1 [105]], watchers := [0, 1],
    notices := [] }

/-- Witness for `readOnly_mutations_rejected` at concrete arguments. -/
theorem readOnly_mutations_rejected_witness :
    ((insertString sampleReadOnlyDoc 1 [97] ([97] : List Nat).length).1 = 0 ∧
      docCore (insertString sampleReadOnlyDoc 1 [97] ([97] : List Nat).length).2
        = docCore sampleReadOnlyDoc ∧
      ∀ w ∈ sampleReadOnlyDoc.watchers,
        (w, Notice.modifyAttempt) ∈
          (insertString sampleReadOnlyDoc 1 [97] ([97] : List Nat).length).2.notices) ∧
    ((deleteChars sampleReadOnlyDoc 1 2).1 = false ∧
      docCore (deleteChars sampleReadOnlyDoc 1 2).2 = docCore sampleReadOnlyDoc ∧
      ∀ w ∈ sampleReadOnlyDoc.watchers,
        (w, Notice.modifyAttempt) ∈ (deleteChars sampleReadOnlyDoc 1 2).2.notices) ∧
    ((undo sampleReadOnlyDoc).1 = -1 ∧
      docCore (undo sampleReadOnlyDoc).2 = docCore sampleReadOnlyDoc ∧
      ∀ w ∈ sampleReadOnlyDoc.watchers,
        (w, Notice.modifyAttempt) ∈ (undo sampleReadOnlyDoc).2.notices) ∧
    ((redo sampleReadOnlyDoc).1 = -1 ∧
      docCore (redo sampleReadOnlyDoc).2 = docCore sampleReadOnlyDoc ∧
      ∀ w ∈ sampleReadOnlyDoc.watchers,
        (w, Notice.modifyAttempt) ∈ (redo sampleReadOnlyDoc).2.notices) :=
  readOnly_mutations_rejected sampleReadOnlyDoc 1 1 2 [97] rfl rfl
    (by decide) (by decide) (by decide) (by decide)

/-- C4: invalid inputs and the reentrance guard reject each gateway:
`DeleteChars` returns false on a negative position, a non-positive length,
a range past the end, or a positive `enteredModification`; `InsertString`
returns 0 on a non-positive length or a positive `enteredModification`;
`Undo`/`Redo` under a positive `enteredModification` are no-ops returning
-1 (the falsy contract value).  In every case the document state (text,
history, guards) is unchanged. -/
theorem guard_rejections (d : DocState) (pos len position insertLength : Int)
    (s : List Nat) :
    ((pos < 0 ∨ len ≤ 0 ∨ pos + len > (d.text.length : Int) ∨
        0 < d.enteredModification) →
      (deleteChars d pos len).1 = false ∧
        docCore (deleteChars d pos len).2 = docCore d) ∧
    ((insertLength ≤ 0 ∨ 0 < d.enteredModification) →
      (insertString d position s insertLength).1 = 0 ∧
        docCore (insertString d position s insertLength).2 = docCore d) ∧
    (0 < d.enteredModification →
      (undo d).1 = -1 ∧ docCore (undo d).2 = docCore d ∧
      (redo d).1 = -1 ∧ docCore (redo d).2 = docCore d) := by
  refine ⟨?_, ?_, ?_⟩
  · intro hguard
    by_cases hg1 : pos < 0
    · simp [deleteChars, hg1]
    · by_cases hg2 : len ≤ 0
      · simp [deleteChars, hg1, hg2]
      · by_cases hg3 : pos + len > (d.text.length : Int)
        · simp [deleteChars, hg1, hg2, hg3]
        · have hem : d.enteredModification ≠ 0 := by omega
          simp [deleteChars, hg1, hg2, hg3, hem, docCore_checkReadOnly]
  · intro hguard
    by_cases hg : insertLength ≤ 0
    · simp [insertString, hg]
    · have hem : d.enteredModification ≠ 0 := by omega
      by_cases hro : d.readOnly = true <;>
        simp [insertString, hg, hem, hro, docCore_checkReadOnly]
  · intro hguard
    have hem : ¬(d.enteredModification = 0 ∧ d.collectingUndo = true) := by
      rintro ⟨h1, -⟩
      omega
    simp [undo, redo, hem, docCore_checkReadOnly]

/-- A concrete document with a reentrant modification in flight, for
witnessing `guard_rejections`. -/
def sampleBusyDoc : DocState :=
  { text := [104, 105, 10, 119], readOnly := false, enteredModification := 1,
    enteredReadOnlyCount := 0, collectingUndo := true,
    undoLog := [.ins 0 [104]], redoLog := [.ins 1 [105]], watchers := [0, 1],
    notices := [] }

/-- Witness for `guard_rejections` at concrete arguments. -/
theorem guard_rejections_witness :
    ((deleteChars sampleBusyDoc (-1) 1).1 = false ∧
      docCore (deleteChars sampleBusyDoc (-1) 1).2 = docCore sampleBusyDoc) ∧
    ((insertString sampleBusyDoc 0 [97] 1).1 = 0 ∧
      docCore (insertString sampleBusyDoc 0 [97] 1).2 = docCore sampleBusyDoc) ∧
    ((undo sampleBusyDoc).1 = -1 ∧
      docCore (undo sampleBusyDoc).2 = docCore sampleBusyDoc ∧
      (redo sampleBusyDoc).1 = -1 ∧
      docCore (redo sampleBusyDoc).2 = docCore sampleBusyDoc) :=
  ⟨(guard_rejections sampleBusyDoc (-1) 1 0 1 [97]).1 (by left; decide),
    (guard_rejections sampleBusyDoc (-1) 1 0 1 [97]).2.1 (by right; decide),
    (guard_rejections sampleBusyDoc (-1) 1 0 1 [97]).2.2 (by decide)⟩

/-! ## Line-end transformation (`Document::TransformLineEnds`) -/

/-- The end-of-line modes (`Scintilla::EndOfLine`). -/
inductive EndOfLine where
  | CrLf
  | Cr
  | Lf
deriving DecidableEq, Repr

/-- `EOLForMode`: the byte sequence a mode writes for a line end. -/
def eolForMode : EndOfLine → List Nat
  | .CrLf => [13, 10]
  | .Cr => [13]
  | .Lf => [10]

/-- `Document::TransformLineEnds(s, len, eolModeWanted)`: copy bytes,
rewriting every line terminator (a `\r`, `\n`, or `\r\n` pair counted
once) as the wanted mode's sequence; the source loop stops at `len` (here
the list end) or at a NUL byte.  `IsEOLCharacter` (header not in this
tree) recognises `\r` and `\n`. -/
def transformLineEnds (m : EndOfLine) : List Nat → List Nat
  | [] => []
  | c :: rest =>
    if c = 0 then []
    else if c = 13 then
      eolForMode m ++
        transformLineEnds m (if rest.head?.getD 0 = 10 then rest.tail else rest)
    else if c = 10 then
      eolForMode m ++ transformLineEnds m rest
    else c :: transformLineEnds m rest
termination_by s => s.length
decreasing_by
  · simp only [List.length_cons]
    have := List.length_tail rest
    split <;> omega
  · simp
  · simp

/-- In `Cr` mode the output never starts with a LF byte. -/
lemma transformLineEnds_cr_head (s : List Nat) :
    (transformLineEnds .Cr s).head?.getD 0 ≠ 10 := by
  match s with
  | [] => simp [transformLineEnds]
  | c :: rest =>
    by_cases h0 : c = 0
    · simp [transformLineEnds, h0]
    · by_cases h13 : c = 13
      · simp [transformLineEnds, h0, h13, eolForMode]
      · by_cases h10 : c = 10
        · simp [transformLineEnds, h0, h13, h10, eolForMode]
        · simp [transformLineEnds, h0, h13, h10]

/-- Prepending one freshly written line end commutes with a further pass. -/
lemma transformLineEnds_eol_append (m : EndOfLine) (l : List Nat)
    (hl : m = .Cr → l.head?.getD 0 ≠ 10) :
    transformLineEnds m (eolForMode m ++ l) =
      eolForMode m ++ transformLineEnds m l := by
  cases m with
  | CrLf => simp [transformLineEnds, eolForMode]
  | Cr =>
    have h := hl rfl
    simp [transformLineEnds, eolForMode, h]
  | Lf => simp [transformLineEnds, eolForMode]

/-- C8: `TransformLineEnds` is idempotent: a second pass with the same
target mode reproduces the first pass byte for byte. -/
theorem transformLineEnds_idempotent (s : List Nat) (m : EndOfLine) :
    transformLineEnds m (transformLineEnds m s) = transformLineEnds m s := by
  suffices H : ∀ n t, t.length ≤ n →
      transformLineEnds m (transformLineEnds m t) = transformLineEnds m t from
    H s.length s le_rfl
  intro n
  induction n with
  | zero =>
    intro t ht
    have : t = [] := List.eq_nil_of_length_eq_zero (by omega)
    subst this
    simp [transformLineEnds]
  | succ n ih =>
    intro t ht
    match t with
    | [] => simp [transformLineEnds]
    | c :: rest =>
      by_cases h0 : c = 0
      · simp [transformLineEnds, h0]
      · by_cases h13 : c = 13
        · by_cases hlf : rest.head?.getD 0 = 10
          · rw [show transformLineEnds m (c :: rest) =
                eolForMode m ++ transformLineEnds m rest.tail by
              simp [transformLineEnds, h0, h13, hlf]]
            rw [transformLineEnds_eol_append m _ (fun hm =>
              hm ▸ transformLineEnds_cr_head rest.tail)]
            have hlen : rest.tail.length ≤ n := by
              have h1 := List.length_tail rest
              simp only [List.length_cons] at ht
              omega
            rw [ih rest.tail hlen]
          · rw [show transformLineEnds m (c :: rest) =
                eolForMode m ++ transformLineEnds m rest by
              simp [transformLineEnds, h0, h13, hlf]]
            rw [transformLineEnds_eol_append m _ (fun hm =>
              hm ▸ transformLineEnds_cr_head rest)]
            have hlen : rest.length ≤ n := by
              simp only [List.length_cons] at ht
              omega
            rw [ih rest hlen]
        · have hlen : rest.length ≤ n := by
            simp only [List.length_cons] at ht
            omega
          by_cases h10 : c = 10
          · rw [show transformLineEnds m (c :: rest) =
                eolForMode m ++ transformLineEnds m rest by
              simp [transformLineEnds, h0, h13, h10]]
            rw [transformLineEnds_eol_append m _ (fun hm =>
              hm ▸ transformLineEnds_cr_head rest)]
            rw [ih rest hlen]
          · rw [show transformLineEnds m (c :: rest) =
                c :: transformLineEnds m rest by
              simp [transformLineEnds, h0, h13, h10]]
            rw [show transformLineEnds m (c :: transformLineEnds m rest) =
                c :: transformLineEnds m (transformLineEnds m rest) by
              simp [transformLineEnds, h0, h13, h10]]
            rw [ih rest hlen]

/-! ## `Document::FindText` length guard -/

/-- `Document::FindText` begins with `if (*length <= 0) return minPos;`
before touching the buffer, the case folder or the regex engine.  The rest
of the function is abstracted as `rest` (a function of every input), so a
theorem quantified over `rest` shows the early return is independent of
all of it.  The result pairs the returned position with the final value of
`*length`. -/
def findTextGuarded (rest : Int → Int → List Nat → Nat → Int → Int × Int)
    (minPos maxPos : Int) (needle : List Nat) (flags : Nat)
    (length : Int) : Int × Int :=
  if length ≤ 0 then (minPos, length)
  else rest minPos maxPos needle flags length

/-- C10: with a zero or negative `*length`, `FindText` returns `minPos` at
once, independently of the remainder of the search (buffer, case folder,
regex engine), and leaves `*length` unmodified. -/
theorem findText_length_guard (rest : Int → Int → List Nat → Nat → Int → Int × Int)
    (minPos maxPos : Int) (needle : List Nat) (flags : Nat) (length : Int)
    (h : length ≤ 0) :
    findTextGuarded rest minPos maxPos needle flags length = (minPos, length) := by
  simp [findTextGuarded, h]

/-- Witness for `findText_length_guard` at concrete arguments. -/
theorem findText_length_guard_witness :
    findTextGuarded (fun _ _ _ _ _ => (99, 99)) 5 0 [97] 0 0 = (5, 0) :=
  findText_length_guard (fun _ _ _ _ _ => (99, 99)) 5 0 [97] 0 0 (by decide)

/-! ## Replacement templates (`BuiltinRegex::SubstituteByPosition`) -/

/-- The submatch positions `RESearch` records after a successful match:
`bopat k` / `eopat k` delimit group `k` of the last successful match.
(RESearch.cxx is not part of this tree; only these two arrays are read by
`SubstituteByPosition`, exactly as the source does.) -/
structure MatchState where
  bopat : Fin 10 → Int
  eopat : Fin 10 → Int

/-- `BuiltinRegex::SubstituteByPosition(doc, text, length)`: process the
replacement template byte by byte.  After a backslash: a digit selects the
submatch, whose bytes are copied when its length is positive
(`GetCharRange`); `a b f n r t v \\` emit the corresponding control or
backslash byte; any other byte falls to the default branch, which emits
the backslash and steps `j` back so the byte is reprocessed as an ordinary
character.  A backslash ending the template reads the terminating NUL,
falls to the default branch, and so emits a lone backslash. -/
def substituteByPosition (docText : List Nat) (ms : MatchState) :
    List Nat → List Nat
  | [] => []
  | c :: rest =>
    if c = 92 then
      match rest with
      | [] => [92]
      | chNext :: rest' =>
        if h : 48 ≤ chNext ∧ chNext ≤ 57 then
          let patNum : Fin 10 := ⟨chNext - 48, by omega⟩
          let startPos := ms.bopat patNum
          let len := ms.eopat patNum - startPos
          (if 0 < len then textRange docText startPos.toNat len.toNat else [])
            ++ substituteByPosition docText ms rest'
        else if chNext = 97 then 7 :: substituteByPosition docText ms rest'
        else if chNext = 98 then 8 :: substituteByPosition docText ms rest'
        else if chNext = 102 then 12 :: substituteByPosition docText ms rest'
        else if chNext = 110 then 10 :: substituteByPosition docText ms rest'
        else if chNext = 114 then 13 :: substituteByPosition docText ms rest'
        else if chNext = 116 then 9 :: substituteByPosition docText ms rest'
        else if chNext = 118 then 11 :: substituteByPosition docText ms rest'
        else if chNext = 92 then 92 :: substituteByPosition docText ms rest'
        else 92 :: substituteByPosition docText ms (chNext :: rest')
    else c :: substituteByPosition docText ms rest
termination_by s => s.length
decreasing_by all_goals simp <;> omega

/-- The control byte each named escape produces. -/
def escByte (x : Nat) : Nat :=
  if x = 97 then 7
  else if x = 98 then 8
  else if x = 102 then 12
  else if x = 110 then 10
  else if x = 114 then 13
  else if x = 116 then 9
  else if x = 118 then 11
  else 92

/-- The rendering the spec describes, defined from the spec's words for
comparison with `substituteByPosition`: `\0..\9` substitute the
corresponding submatch of the last successful match (empty when the group
did not match), `\a\b\f\n\r\t\v\\` yield the obvious escapes, and any
other `\x` emits the two bytes `\` `x` literally.  (A trailing backslash,
which the spec's sentence does not cover, renders as itself.) -/
def specSubstitute (groupBytes : Fin 10 → List Nat) : List Nat → List Nat
  | [] => []
  | c :: rest =>
    if c = 92 then
      match rest with
      | [] => [92]
      | x :: rest' =>
        if h : 48 ≤ x ∧ x ≤ 57 then
          groupBytes ⟨x - 48, by omega⟩ ++ specSubstitute groupBytes rest'
        else if x = 97 ∨ x = 98 ∨ x = 102 ∨ x = 110 ∨ x = 114 ∨ x = 116 ∨
            x = 118 ∨ x = 92 then
          escByte x :: specSubstitute groupBytes rest'
        else 92 :: x :: specSubstitute groupBytes rest'
    else c :: specSubstitute groupBytes rest

/-- The bytes of submatch `k`, as the spec reads them: the document bytes
between `bopat k` and `eopat k` for a matched group, empty otherwise. -/
def groupBytesOf (docText : List Nat) (ms : MatchState)
    (matched : Fin 10 → Bool) (k : Fin 10) : List Nat :=
  if matched k then
    textRange docText (ms.bopat k).toNat (ms.eopat k - ms.bopat k).toNat
  else []

/-- Well-formed match state: matched groups have ordered non-negative
bounds, unmatched groups have a non-positive extent (the source tests
`len > 0` to detect groups that did not take part in the match). -/
def MatchWF (ms : MatchState) (matched : Fin 10 → Bool) : Prop :=
  ∀ k : Fin 10,
    (matched k = true → 0 ≤ ms.bopat k ∧ ms.bopat k ≤ ms.eopat k) ∧
    (matched k = false → ms.eopat k ≤ ms.bopat k)

/-- C6: `SubstituteByPosition` renders every template exactly as the spec
describes — each `\0..\9` becomes the bytes of the corresponding submatch
of the last successful match (empty when the group did not match), the
named escapes produce their control bytes, any other `\x` is emitted as
the two literal bytes; in particular the template `\0` yields exactly the
last matched bytes. -/
theorem substituteByPosition_matches_spec (docText : List Nat)
    (ms : MatchState) (matched : Fin 10 → Bool) (template : List Nat)
    (hwf : MatchWF ms matched) :
    substituteByPosition docText ms template =
      specSubstitute (groupBytesOf docText ms matched) template ∧
    (matched 0 = true →
      substituteByPosition docText ms [92, 48] =
        textRange docText (ms.bopat 0).toNat (ms.eopat 0 - ms.bopat 0).toNat) := by
  have hgroup : ∀ (k : Fin 10),
      (if 0 < ms.eopat k - ms.bopat k then
          textRange docText (ms.bopat k).toNat (ms.eopat k - ms.bopat k).toNat
        else []) = groupBytesOf docText ms matched k := by
    intro k
    obtain ⟨hm, hu⟩ := hwf k
    unfold groupBytesOf
    cases hmk : matched k with
    | true =>
      obtain ⟨h0, h1⟩ := hm hmk
      by_cases hlen : 0 < ms.eopat k - ms.bopat k
      · simp [hlen]
      · have : (ms.eopat k - ms.bopat k).toNat = 0 := by omega
        simp [hlen, this, textRange]
    | false =>
      have := hu hmk
      have hlen : ¬(0 < ms.eopat k - ms.bopat k) := by omega
      simp [hlen]
  constructor
  · suffices H : ∀ n t, t.length ≤ n →
        substituteByPosition docText ms t =
          specSubstitute (groupBytesOf docText ms matched) t from
      H template.length template le_rfl
    intro n
    induction n with
    | zero =>
      intro t ht
      have : t = [] := List.eq_nil_of_length_eq_zero (by omega)
      subst this
      simp [substituteByPosition, specSubstitute]
    | succ n ih =>
      intro t ht
      match t with
      | [] => simp [substituteByPosition, specSubstitute]
      | c :: rest =>
        by_cases hc : c = 92
        · subst hc
          match rest with
          | [] => simp [substituteByPosition, specSubstitute]
          | x :: rest' =>
            simp only [List.length_cons] at ht
            have hlen' : rest'.length ≤ n := by omega
            by_cases hd : 48 ≤ x ∧ x ≤ 57
            · rw [show substituteByPosition docText ms (92 :: x :: rest') =
                  (if 0 < ms.eopat ⟨x - 48, by omega⟩ - ms.bopat ⟨x - 48, by omega⟩ then
                    textRange docText (ms.bopat ⟨x - 48, by omega⟩).toNat
                      (ms.eopat ⟨x - 48, by omega⟩ - ms.bopat ⟨x - 48, by omega⟩).toNat
                  else []) ++ substituteByPosition docText ms rest' by
                simp [substituteByPosition, hd]]
              rw [show specSubstitute (groupBytesOf docText ms matched) (92 :: x :: rest') =
                  groupBytesOf docText ms matched ⟨x - 48, by omega⟩ ++
                    specSubstitute (groupBytesOf docText ms matched) rest' by
                simp [specSubstitute, hd]]
              rw [hgroup ⟨x - 48, by omega⟩, ih rest' hlen']
            · by_cases hesc : x = 97 ∨ x = 98 ∨ x = 102 ∨ x = 110 ∨ x = 114 ∨
                  x = 116 ∨ x = 118 ∨ x = 92
              · rcases hesc with h | h | h | h | h | h | h | h <;> subst h <;>
                  simp [substituteByPosition, specSubstitute, escByte, hd] <;>
                  exact ih rest' hlen'
              · push_neg at hesc
                obtain ⟨e1, e2, e3, e4, e5, e6, e7, e8⟩ := hesc
                rw [show substituteByPosition docText ms (92 :: x :: rest') =
                    92 :: substituteByPosition docText ms (x :: rest') by
                  simp [substituteByPosition, hd, e1, e2, e3, e4, e5, e6, e7, e8]]
                rw [show substituteByPosition docText ms (x :: rest') =
                    x :: substituteByPosition docText ms rest' by
                  conv_lhs => rw [substituteByPosition.eq_def]
                  simp [e8]]
                rw [show specSubstitute (groupBytesOf docText ms matched) (92 :: x :: rest') =
                    92 :: x :: specSubstitute (groupBytesOf docText ms matched) rest' by
                  simp [specSubstitute, hd, e1, e2, e3, e4, e5, e6, e7, e8]]
                rw [ih rest' hlen']
        · simp only [List.length_cons] at ht
          rw [show substituteByPosition docText ms (c :: rest) =
              c :: substituteByPosition docText ms rest by
            conv_lhs => rw [substituteByPosition.eq_def]
            simp [hc]]
          rw [show specSubstitute (groupBytesOf docText ms matched) (c :: rest) =
              c :: specSubstitute (groupBytesOf docText ms matched) rest by
            conv_lhs => rw [specSubstitute.eq_def]
            simp [hc]]
          rw [ih rest (by omega)]
  · intro hm0
    obtain ⟨h0, h1⟩ := (hwf 0).1 hm0
    by_cases hlen : 0 < ms.eopat 0 - ms.bopat 0
    · simp [substituteByPosition, hlen]
    · have hz : (ms.eopat 0 - ms.bopat 0).toNat = 0 := by omega
      simp [substituteByPosition, hlen, hz, textRange]

/-- A concrete match state over the document "x(name)y": match 0 spans
[1,7), group 1 spans [2,6) ("name"), groups 2-9 did not take part. -/
def sampleMatch : MatchState :=
  ⟨fun k => if k.val = 0 then 1 else if k.val = 1 then 2 else 3,
   fun k => if k.val = 0 then 7 else if k.val = 1 then 6 else 3⟩

/-- Which groups of `sampleMatch` matched. -/
def sampleMatched : Fin 10 → Bool := fun k => decide (k.val ≤ 1)

/-- Witness for `substituteByPosition_matches_spec`: document "x(name)y",
rendering the template "[\1]" and the template "\0". -/
theorem substituteByPosition_matches_spec_witness :
    MatchWF sampleMatch sampleMatched ∧
    (substituteByPosition [120, 40, 110, 97, 109, 101, 41, 121] sampleMatch
        [91, 92, 49, 93] =
      specSubstitute
        (groupBytesOf [120, 40, 110, 97, 109, 101, 41, 121] sampleMatch
          sampleMatched) [91, 92, 49, 93] ∧
    (sampleMatched 0 = true →
      substituteByPosition [120, 40, 110, 97, 109, 101, 41, 121] sampleMatch
        [92, 48] =
      textRange [120, 40, 110, 97, 109, 101, 41, 121]
        (sampleMatch.bopat 0).toNat
        (sampleMatch.eopat 0 - sampleMatch.bopat 0).toNat)) := by
  have hwf : MatchWF sampleMatch sampleMatched := by
    unfold MatchWF sampleMatch sampleMatched
    decide
  exact ⟨hwf, substituteByPosition_matches_spec
    [120, 40, 110, 97, 109, 101, 41, 121] sampleMatch sampleMatched
    [91, 92, 49, 93] hwf⟩

/-! ## Encoding model (`Document::MovePositionOutsideChar` and friends)

The UTF-8 byte predicates live in UniConversion.h, which is not part of
this tree; they are modelled from the spec's UTF-8 description and the
UTF-8 standard: continuation bytes are 0x80..0xBF, lead bytes 0xC2..0xDF /
0xE0..0xEF / 0xF0..0xF4 open 2/3/4-byte sequences, and the second byte is
range-restricted after 0xE0/0xED/0xF0/0xF4 (overlongs and surrogates). -/

/-- `UTF8IsTrailByte`: a continuation byte, 0x80..0xBF. -/
def utf8IsTrailByte (b : Nat) : Bool := decide (128 ≤ b ∧ b < 192)

/-- `UTF8IsAscii`: a single-byte character, below 0x80. -/
def utf8IsAscii (b : Nat) : Bool := decide (b < 128)

/-- `UTF8BytesOfLead`: the sequence width a lead byte announces (1 for
ASCII, continuation bytes and the invalid leads 0xC0/0xC1/0xF5..). -/
def utf8BytesOfLead (b : Nat) : Nat :=
  if b < 194 then 1
  else if b < 224 then 2
  else if b < 240 then 3
  else if b < 245 then 4
  else 1

/-- `UTF8ClassifyMulti` validity of the multi-byte sequence starting at
`s` whose width the lead byte announces: every continuation byte in range,
with the second-byte restrictions after 0xE0/0xED/0xF0/0xF4.  Bytes past
the end of the text read as 0 (never a continuation byte), exactly as the
source zero-fills `charBytes`. -/
def utf8ValidSeq (t : List Nat) (s : Nat) : Bool :=
  let b0 := byteAt t s
  let w := utf8BytesOfLead b0
  if w = 2 then utf8IsTrailByte (byteAt t (s + 1))
  else if w = 3 then
    utf8IsTrailByte (byteAt t (s + 1)) && utf8IsTrailByte (byteAt t (s + 2)) &&
      !(decide (b0 = 224) && decide (byteAt t (s + 1) < 160)) &&
      !(decide (b0 = 237) && decide (160 ≤ byteAt t (s + 1)))
  else if w = 4 then
    utf8IsTrailByte (byteAt t (s + 1)) && utf8IsTrailByte (byteAt t (s + 2)) &&
      utf8IsTrailByte (byteAt t (s + 3)) &&
      !(decide (b0 = 240) && decide (byteAt t (s + 1) < 144)) &&
      !(decide (b0 = 244) && decide (144 ≤ byteAt t (s + 1)))
  else false

/-- A valid multi-byte UTF-8 sequence starts at `s`. -/
def utf8MultiAt (t : List Nat) (s : Nat) : Bool :=
  decide (2 ≤ utf8BytesOfLead (byteAt t s)) && utf8ValidSeq t s

/-- The backward trail-byte scan opening `Document::InGoodUTF8`: step back
over continuation bytes from `pos`, at most `UTF8MaxBytes` positions
(the loop runs while `pos - trail < 4`, so up to four steps), unrolled. -/
def utf8StartScan (t : List Nat) (pos : Nat) : Nat :=
  if 0 < pos ∧ utf8IsTrailByte (byteAt t (pos - 1)) then
    if 1 < pos ∧ utf8IsTrailByte (byteAt t (pos - 2)) then
      if 2 < pos ∧ utf8IsTrailByte (byteAt t (pos - 3)) then
        if 3 < pos ∧ utf8IsTrailByte (byteAt t (pos - 4)) then pos - 4
        else pos - 3
      else pos - 2
    else pos - 1
  else pos

/-- `Document::InGoodUTF8(pos, start, end)`: `some (start, end)` when
`pos` sits inside a valid multi-byte sequence `[start, end)`, `none`
otherwise (lead announces width 1, `pos` too far from the lead, or the
bytes are not a valid sequence). -/
def inGoodUTF8 (t : List Nat) (pos : Nat) : Option (Nat × Nat) :=
  let trail := utf8StartScan t pos
  let start := if 0 < trail then trail - 1 else trail
  let width := utf8BytesOfLead (byteAt t start)
  if width = 1 then none
  else if width - 1 < pos - start then none
  else if utf8ValidSeq t start then some (start, start + width)
  else none

/-- `Document::IsCrLf(pos)`: a CR at a valid index followed by a LF. -/
def isCrLf (t : List Nat) (pos : Nat) : Bool :=
  decide (pos < t.length) && decide (byteAt t pos = 13) &&
    decide (byteAt t (pos + 1) = 10)

/-- The encoding families behind `dbcsCodePage`: 0, CpUtf8, or a DBCS
code page given by its lead/trail byte predicates. -/
inductive Encoding where
  | sbcs
  | utf8
  | dbcs (isLead isTrail : Nat → Bool)

/-- `Document::IsDBCSDualByteAt`: a lead byte followed by a trail byte. -/
def isDBCSDualByteAt (isLead isTrail : Nat → Bool) (t : List Nat)
    (pos : Nat) : Bool :=
  isLead (byteAt t pos) && isTrail (byteAt t (pos + 1))

/-- The DBCS branch's backward scan: `while (posCheck > 0 &&
IsDBCSLeadByteNoExcept(cb.CharAt(posCheck - 1))) posCheck--;`. -/
def dbcsBackScan (isLead : Nat → Bool) (t : List Nat) : Nat → Nat
  | 0 => 0
  | p + 1 => if isLead (byteAt t p) then dbcsBackScan isLead t p else p + 1

/-- The DBCS branch's forward walk from a known character start: advance
one or two bytes per character; return `pos` if hit exactly, otherwise
the surrounding boundary in the move direction; when the walk ends at or
past `pos` without overshooting, return `pos`. -/
def dbcsWalkLoop (dual : Nat → Bool) (pos : Nat) (moveDir : Int)
    (posCheck : Nat) : Nat :=
  if posCheck < pos then
    let mb := if dual posCheck then 2 else 1
    if posCheck + mb = pos then pos
    else if pos < posCheck + mb then
      if 0 < moveDir then posCheck + mb else posCheck
    else dbcsWalkLoop dual pos moveDir (posCheck + mb)
  else pos
termination_by pos - posCheck
decreasing_by
  rename_i h _ _
  split <;> omega

/-- `Document::MovePositionOutsideChar(pos, moveDir, checkLineEnd)` for an
in-range `pos` (the source clamps `pos <= 0` to 0 and `pos >= Length` to
Length first), per encoding family. -/
def movePositionOutsideChar (t : List Nat) (enc : Encoding) (pos : Nat)
    (moveDir : Int) (checkLineEnd : Bool) : Nat :=
  if pos = 0 then 0
  else if t.length ≤ pos then t.length
  else if checkLineEnd ∧ isCrLf t (pos - 1) then
    if 0 < moveDir then pos + 1 else pos - 1
  else
    match enc with
    | .sbcs => pos
    | .utf8 =>
      if utf8IsTrailByte (byteAt t pos) then
        match inGoodUTF8 t pos with
        | some (s, e) => if 0 < moveDir then e else s
        | none => pos
      else pos
    | .dbcs isLead isTrail =>
      dbcsWalkLoop (isDBCSDualByteAt isLead isTrail t) pos moveDir
        (dbcsBackScan isLead t pos)

/-- `r` splits a valid multi-byte UTF-8 sequence: it lies strictly inside
one (the start is at most three bytes back). -/
def splitsUTF8 (t : List Nat) (r : Nat) : Bool :=
  (List.range 3).any fun k =>
    decide (k + 1 ≤ r) && utf8MultiAt t (r - k - 1) &&
      decide (r < r - k - 1 + utf8BytesOfLead (byteAt t (r - k - 1)))

/-- `r` splits a CR-LF pair: a CR just before it and a LF at it. -/
def splitsCrLf (t : List Nat) (r : Nat) : Bool :=
  decide (1 ≤ r) && decide (byteAt t (r - 1) = 13) && decide (byteAt t r = 10)

/-- One step of the ground-truth DBCS decomposition that starts at 0. -/
def dbcsNextChar (dual : Nat → Bool) (p : Nat) : Nat :=
  p + (if dual p then 2 else 1)

/-- Whether the decomposition walk from `p` lands exactly on `r`. -/
def dbcsBoundaryFrom (dual : Nat → Bool) (p r : Nat) : Bool :=
  if p < r then dbcsBoundaryFrom dual (dbcsNextChar dual p) r
  else decide (p = r)
termination_by r - p
decreasing_by
  simp only [dbcsNextChar]
  split <;> omega

/-- `r` is a character boundary of the DBCS decomposition from 0. -/
def dbcsIsBoundary (dual : Nat → Bool) (r : Nat) : Bool :=
  dbcsBoundaryFrom dual 0 r

/-- The per-family character-boundary reading of the claim: every position
in single-byte text; a position not splitting a valid multi-byte sequence
for UTF-8; a position of the ground-truth decomposition for DBCS. -/
def onCharBoundary (t : List Nat) (enc : Encoding) (r : Nat) : Bool :=
  match enc with
  | .sbcs => true
  | .utf8 => !splitsUTF8 t r
  | .dbcs isLead isTrail =>
    dbcsIsBoundary (isDBCSDualByteAt isLead isTrail t) r

/-- Sanity of a DBCS code page, from `SetDBCSCodePage`: lead bytes are at
least 0x81 and trail bytes at least 0x31 on every supported page, so the
ASCII control bytes CR, LF and NUL are neither. -/
def EncSane (enc : Encoding) : Prop :=
  match enc with
  | .dbcs isLead isTrail =>
    isLead 10 = false ∧ isTrail 13 = false ∧ isTrail 0 = false
  | _ => True

lemma utf8IsTrailByte_range {b : Nat} (h : utf8IsTrailByte b = true) :
    128 ≤ b ∧ b < 192 := by
  simpa [utf8IsTrailByte] using h

lemma utf8BytesOfLead_of_trail {b : Nat} (h : utf8IsTrailByte b = true) :
    utf8BytesOfLead b = 1 := by
  obtain ⟨h1, h2⟩ := utf8IsTrailByte_range h
  unfold utf8BytesOfLead
  rw [if_pos (by omega)]

lemma utf8MultiAt_width {t : List Nat} {s : Nat} (h : utf8MultiAt t s = true) :
    2 ≤ utf8BytesOfLead (byteAt t s) ∧ utf8BytesOfLead (byteAt t s) ≤ 4 := by
  simp only [utf8MultiAt, Bool.and_eq_true, decide_eq_true_eq] at h
  refine ⟨h.1, ?_⟩
  unfold utf8BytesOfLead
  split_ifs <;> omega

lemma utf8MultiAt_lead {t : List Nat} {s : Nat} (h : utf8MultiAt t s = true) :
    194 ≤ byteAt t s := by
  simp only [utf8MultiAt, Bool.and_eq_true, decide_eq_true_eq] at h
  by_contra hc
  have : utf8BytesOfLead (byteAt t s) = 1 := by
    unfold utf8BytesOfLead
    rw [if_pos (by omega)]
  omega

lemma utf8MultiAt_not_trail_lead {t : List Nat} {s : Nat}
    (h : utf8MultiAt t s = true) : utf8IsTrailByte (byteAt t s) = false := by
  have := utf8MultiAt_lead h
  simp [utf8IsTrailByte]
  omega

lemma utf8MultiAt_trail {t : List Nat} {s : Nat} (h : utf8MultiAt t s = true) :
    ∀ i, 1 ≤ i → i < utf8BytesOfLead (byteAt t s) →
      utf8IsTrailByte (byteAt t (s + i)) = true := by
  intro i h1 h2
  have hv : utf8ValidSeq t s = true := by
    simp only [utf8MultiAt, Bool.and_eq_true] at h
    exact h.2
  have hw4 : utf8BytesOfLead (byteAt t s) ≤ 4 := by
    unfold utf8BytesOfLead
    split_ifs <;> omega
  simp only [utf8ValidSeq] at hv
  split at hv
  · rename_i hw
    have : i = 1 := by omega
    subst this
    exact hv
  · split at hv
    · rename_i hw2 hw3
      simp only [Bool.and_eq_true] at hv
      rcases (show i = 1 ∨ i = 2 by omega) with hi | hi <;> subst hi
      · exact hv.1.1.1
      · exact hv.1.1.2
    · split at hv
      · rename_i hw2 hw3 hw4'
        simp only [Bool.and_eq_true] at hv
        rcases (show i = 1 ∨ i = 2 ∨ i = 3 by omega) with hi | hi | hi <;> subst hi
        · exact hv.1.1.1.1
        · exact hv.1.1.1.2
        · exact hv.1.1.2
      · exact absurd hv (by simp)

lemma splitsUTF8_elim {t : List Nat} {r : Nat} (h : splitsUTF8 t r = true) :
    ∃ s, utf8MultiAt t s = true ∧ s < r ∧
      r < s + utf8BytesOfLead (byteAt t s) := by
  simp only [splitsUTF8, List.any_eq_true, List.mem_range, Bool.and_eq_true,
    decide_eq_true_eq] at h
  obtain ⟨k, hk, ⟨h1, h2⟩, h3⟩ := h
  exact ⟨r - k - 1, h2, by omega, h3⟩

lemma splitsUTF8_intro {t : List Nat} {r s : Nat}
    (hm : utf8MultiAt t s = true) (h1 : s < r)
    (h2 : r < s + utf8BytesOfLead (byteAt t s)) : splitsUTF8 t r = true := by
  have hw4 := (utf8MultiAt_width hm).2
  simp only [splitsUTF8, List.any_eq_true, List.mem_range, Bool.and_eq_true,
    decide_eq_true_eq]
  refine ⟨r - s - 1, by omega, ⟨by omega, ?_⟩, ?_⟩ <;>
    rw [show r - (r - s - 1) - 1 = s by omega]
  · exact hm
  · exact h2

lemma splitsUTF8_trail {t : List Nat} {r : Nat} (h : splitsUTF8 t r = true) :
    utf8IsTrailByte (byteAt t r) = true := by
  obtain ⟨s, hm, h1, h2⟩ := splitsUTF8_elim h
  have := utf8MultiAt_trail hm (r - s) (by omega) (by omega)
  rwa [show s + (r - s) = r by omega] at this

lemma not_splitsUTF8_of_not_trail {t : List Nat} {r : Nat}
    (h : utf8IsTrailByte (byteAt t r) = false) : splitsUTF8 t r = false := by
  cases hc : splitsUTF8 t r with
  | false => rfl
  | true => rw [splitsUTF8_trail hc] at h; cases h

lemma utf8MultiAt_not_split_start {t : List Nat} {s : Nat}
    (hm : utf8MultiAt t s = true) : splitsUTF8 t s = false :=
  not_splitsUTF8_of_not_trail (utf8MultiAt_not_trail_lead hm)

lemma utf8MultiAt_not_split_end {t : List Nat} {s : Nat}
    (hm : utf8MultiAt t s = true) :
    splitsUTF8 t (s + utf8BytesOfLead (byteAt t s)) = false := by
  cases hc : splitsUTF8 t (s + utf8BytesOfLead (byteAt t s)) with
  | false => rfl
  | true =>
    exfalso
    set w := utf8BytesOfLead (byteAt t s) with hwdef
    obtain ⟨hw2, hw4⟩ := utf8MultiAt_width hm
    obtain ⟨s', hm', h1, h2⟩ := splitsUTF8_elim hc
    rcases Nat.lt_trichotomy s' s with hlt | heq | hgt
    · -- our lead byte would be a continuation byte of the earlier sequence
      have hin := utf8MultiAt_trail hm' (s - s') (by omega) (by omega)
      rw [show s' + (s - s') = s by omega] at hin
      have := utf8MultiAt_not_trail_lead hm
      rw [hin] at this
      cases this
    · subst heq
      omega
    · -- the later start would be a continuation byte of our sequence
      have hin := utf8MultiAt_trail hm (s' - s) (by omega) (by omega)
      rw [show s + (s' - s) = s' by omega] at hin
      have := utf8MultiAt_not_trail_lead hm'
      rw [hin] at this
      cases this

lemma not_splitsUTF8_succ {t : List Nat} {pos : Nat}
    (h1 : utf8IsTrailByte (byteAt t pos) = false)
    (h2 : utf8BytesOfLead (byteAt t pos) = 1) :
    splitsUTF8 t (pos + 1) = false := by
  cases hc : splitsUTF8 t (pos + 1) with
  | false => rfl
  | true =>
    exfalso
    obtain ⟨s, hm, hs1, hs2⟩ := splitsUTF8_elim hc
    rcases Nat.lt_or_ge s pos with hlt | hge
    · have hin := utf8MultiAt_trail hm (pos - s) (by omega) (by omega)
      rw [show s + (pos - s) = pos by omega] at hin
      rw [hin] at h1
      cases h1
    · have : s = pos := by omega
      subst this
      have := (utf8MultiAt_width hm).1
      omega

lemma utf8StartScan_le (t : List Nat) (pos : Nat) :
    utf8StartScan t pos ≤ pos := by
  unfold utf8StartScan
  split_ifs <;> omega

lemma utf8BytesOfLead_pos (b : Nat) : 1 ≤ utf8BytesOfLead b := by
  unfold utf8BytesOfLead
  split_ifs <;> omega

/-- When `pos` sits strictly inside a short run: a non-continuation byte
at `s` followed by continuation bytes up to `pos`, the backward scan stops
right after `s`. -/
lemma utf8StartScan_eval {t : List Nat} {pos s : Nat} (d1 : s < pos)
    (d2 : pos ≤ s + 3) (hlead : utf8IsTrailByte (byteAt t s) = false)
    (htrail : ∀ i, 1 ≤ i → s + i < pos →
      utf8IsTrailByte (byteAt t (s + i)) = true) :
    utf8StartScan t pos = s + 1 := by
  unfold utf8StartScan
  rcases (show pos - s = 1 ∨ pos - s = 2 ∨ pos - s = 3 by omega)
    with hd | hd | hd
  · rw [if_neg]
    · omega
    · rw [show pos - 1 = s by omega, hlead]
      simp
  · have ht1 : utf8IsTrailByte (byteAt t (pos - 1)) = true := by
      have := htrail 1 le_rfl (by omega)
      rwa [show s + 1 = pos - 1 by omega] at this
    rw [if_pos ⟨by omega, ht1⟩, if_neg]
    · omega
    · rw [show pos - 2 = s by omega, hlead]
      simp
  · have ht1 : utf8IsTrailByte (byteAt t (pos - 1)) = true := by
      have := htrail 2 (by omega) (by omega)
      rwa [show s + 2 = pos - 1 by omega] at this
    have ht2 : utf8IsTrailByte (byteAt t (pos - 2)) = true := by
      have := htrail 1 le_rfl (by omega)
      rwa [show s + 1 = pos - 2 by omega] at this
    rw [if_pos ⟨by omega, ht1⟩, if_pos ⟨by omega, ht2⟩, if_neg]
    · omega
    · rw [show pos - 3 = s by omega, hlead]
      simp

lemma inGoodUTF8_some {t : List Nat} {pos s e : Nat}
    (h : inGoodUTF8 t pos = some (s, e)) :
    utf8MultiAt t s = true ∧ e = s + utf8BytesOfLead (byteAt t s) ∧
      pos ≤ s + utf8BytesOfLead (byteAt t s) - 1 ∧ s ≤ pos := by
  have hle := utf8StartScan_le t pos
  simp only [inGoodUTF8] at h
  set scan := utf8StartScan t pos with hscan
  set st := if 0 < scan then scan - 1 else scan with hst
  have hstle : st ≤ pos := by rw [hst]; split_ifs <;> omega
  split_ifs at h with h1 h2 h3
  rw [Option.some_inj, Prod.mk.injEq] at h
  obtain ⟨hs, he⟩ := h
  subst hs
  subst he
  have hwpos := utf8BytesOfLead_pos (byteAt t st)
  refine ⟨?_, rfl, by omega, hstle⟩
  simp only [utf8MultiAt, Bool.and_eq_true, decide_eq_true_eq]
  exact ⟨by omega, h3⟩

/-- When `inGoodUTF8` reports `none` at a continuation byte, no valid
multi-byte sequence strictly contains `pos`. -/
lemma inGoodUTF8_none_not_splits {t : List Nat} {pos : Nat}
    (hn : inGoodUTF8 t pos = none) : splitsUTF8 t pos = false := by
  cases hc : splitsUTF8 t pos with
  | false => rfl
  | true =>
    exfalso
    obtain ⟨s, hm, h1, h2⟩ := splitsUTF8_elim hc
    obtain ⟨hw2, hw4⟩ := utf8MultiAt_width hm
    have hscan : utf8StartScan t pos = s + 1 := by
      apply utf8StartScan_eval h1 (by omega) (utf8MultiAt_not_trail_lead hm)
      intro i hi1 hi2
      exact utf8MultiAt_trail hm i hi1 (by omega)
    have hv : utf8ValidSeq t s = true := by
      simp only [utf8MultiAt, Bool.and_eq_true] at hm
      exact hm.2
    have hcomp : inGoodUTF8 t pos =
        some (s, s + utf8BytesOfLead (byteAt t s)) := by
      simp only [inGoodUTF8, hscan]
      rw [if_pos (by omega : 0 < s + 1)]
      simp only [Nat.add_sub_cancel]
      rw [if_neg (by omega), if_neg (by omega), if_pos hv]
    rw [hcomp] at hn
    exact Option.noConfusion hn

lemma dbcsNextChar_gt (dual : Nat → Bool) (p : Nat) : p < dbcsNextChar dual p := by
  unfold dbcsNextChar
  split <;> omega

lemma dbcsNextChar_le_add_two (dual : Nat → Bool) (p : Nat) :
    dbcsNextChar dual p ≤ p + 2 := by
  unfold dbcsNextChar
  split <;> omega

lemma dbcsBoundaryFrom_eq (dual : Nat → Bool) (p r : Nat) :
    dbcsBoundaryFrom dual p r =
      if p < r then dbcsBoundaryFrom dual (dbcsNextChar dual p) r
      else decide (p = r) := by
  rw [dbcsBoundaryFrom]

lemma dbcsBoundaryFrom_self (dual : Nat → Bool) (p : Nat) :
    dbcsBoundaryFrom dual p p = true := by
  rw [dbcsBoundaryFrom_eq]
  simp

/-- A boundary's successor along the decomposition walk is a boundary. -/
lemma dbcsBoundaryFrom_next (dual : Nat → Bool) :
    ∀ n q b, b - q ≤ n → dbcsBoundaryFrom dual q b = true →
      dbcsBoundaryFrom dual q (dbcsNextChar dual b) = true := by
  intro n
  induction n with
  | zero =>
    intro q b hb h
    rw [dbcsBoundaryFrom_eq] at h
    rw [if_neg (by omega)] at h
    have hqb : q = b := by simpa using h
    subst hqb
    rw [dbcsBoundaryFrom_eq, if_pos (dbcsNextChar_gt dual q)]
    exact dbcsBoundaryFrom_self dual _
  | succ n ih =>
    intro q b hb h
    rw [dbcsBoundaryFrom_eq] at h
    by_cases hqb : q < b
    · rw [if_pos hqb] at h
      have hgt := dbcsNextChar_gt dual q
      have hgtb := dbcsNextChar_gt dual b
      rw [dbcsBoundaryFrom_eq, if_pos (by omega : q < dbcsNextChar dual b)]
      exact ih (dbcsNextChar dual q) b (by omega) h
    · rw [if_neg hqb] at h
      have hqb' : q = b := by simpa using h
      subst hqb'
      rw [dbcsBoundaryFrom_eq, if_pos (dbcsNextChar_gt dual q)]
      exact dbcsBoundaryFrom_self dual _

/-- A non-boundary position sits strictly inside a two-byte character:
the previous position is a boundary with `dual` set. -/
lemma dbcsBoundaryFrom_gap (dual : Nat → Bool) :
    ∀ n p r, r - p ≤ n → p ≤ r → dbcsBoundaryFrom dual p r = false →
      ∃ b, b + 1 = r ∧ dual b = true ∧ dbcsBoundaryFrom dual p b = true := by
  intro n
  induction n with
  | zero =>
    intro p r hn hpr h
    have : p = r := by omega
    subst this
    rw [dbcsBoundaryFrom_self dual p] at h
    cases h
  | succ n ih =>
    intro p r hn hpr h
    by_cases hlt : p < r
    · rw [dbcsBoundaryFrom_eq, if_pos hlt] at h
      by_cases hnext : dbcsNextChar dual p ≤ r
      · obtain ⟨b, hb1, hb2, hb3⟩ := ih (dbcsNextChar dual p) r
          (by have := dbcsNextChar_gt dual p; omega) hnext h
        refine ⟨b, hb1, hb2, ?_⟩
        by_cases hpb : p < b
        · rw [dbcsBoundaryFrom_eq, if_pos hpb]
          exact hb3
        · -- p = b would make the recursive boundary check start past b
          have hpb' : p = b := by omega
          subst hpb'
          rw [dbcsBoundaryFrom_eq,
            if_neg (by have := dbcsNextChar_gt dual p; omega)] at hb3
          have := dbcsNextChar_gt dual p
          simp at hb3
          omega
      · -- the walk jumps from p over r: a dual character at p covers r
        have h2 := dbcsNextChar_le_add_two dual p
        have hr : r = p + 1 := by omega
        have hdual : dual p = true := by
          cases hd : dual p with
          | true => rfl
          | false =>
            exfalso
            have : dbcsNextChar dual p = p + 1 := by
              simp [dbcsNextChar, hd]
            omega
        exact ⟨p, by omega, hdual, dbcsBoundaryFrom_self dual p⟩
    · have : p = r := by omega
      subst this
      rw [dbcsBoundaryFrom_self dual p] at h
      cases h

lemma dbcsBackScan_le (isLead : Nat → Bool) (t : List Nat) :
    ∀ q, dbcsBackScan isLead t q ≤ q := by
  intro q
  induction q with
  | zero => simp [dbcsBackScan]
  | succ q ih =>
    unfold dbcsBackScan
    split
    · omega
    · omega

lemma dbcsBackScan_nonLead (isLead : Nat → Bool) (t : List Nat) :
    ∀ q, dbcsBackScan isLead t q = 0 ∨
      isLead (byteAt t (dbcsBackScan isLead t q - 1)) = false := by
  intro q
  induction q with
  | zero => left; rfl
  | succ q ih =>
    unfold dbcsBackScan
    split
    · exact ih
    · rename_i hq
      right
      simpa using hq

/-- A position whose previous byte is not a lead byte is a boundary of the
decomposition (so is 0). -/
lemma dbcs_boundary_of_nonLead (isLead isTrail : Nat → Bool) (t : List Nat)
    (q : Nat) (h : q = 0 ∨ isLead (byteAt t (q - 1)) = false) :
    dbcsIsBoundary (isDBCSDualByteAt isLead isTrail t) q = true := by
  cases hb : dbcsIsBoundary (isDBCSDualByteAt isLead isTrail t) q with
  | true => rfl
  | false =>
    exfalso
    obtain ⟨b, hb1, hb2, -⟩ := dbcsBoundaryFrom_gap
      (isDBCSDualByteAt isLead isTrail t) q 0 q (by omega) (by omega) hb
    simp only [isDBCSDualByteAt, Bool.and_eq_true] at hb2
    rcases h with h | h
    · omega
    · rw [show q - 1 = b by omega] at h
      rw [hb2.1] at h
      cases h

lemma dbcsIsBoundary_of_no_overshoot (dual : Nat → Bool) (r : Nat)
    (h : ∀ p, p < r → dbcsNextChar dual p ≤ r) :
    dbcsIsBoundary dual r = true := by
  suffices H : ∀ n p, r - p ≤ n → p ≤ r → dbcsBoundaryFrom dual p r = true from
    H r 0 (by omega) (by omega)
  intro n
  induction n with
  | zero =>
    intro p hn hp
    have : p = r := by omega
    subst this
    exact dbcsBoundaryFrom_self dual p
  | succ n ih =>
    intro p hn hp
    by_cases hlt : p < r
    · rw [dbcsBoundaryFrom_eq, if_pos hlt]
      have h1 := h p hlt
      have h2 := dbcsNextChar_gt dual p
      exact ih (dbcsNextChar dual p) (by omega) h1
    · have : p = r := by omega
      subst this
      exact dbcsBoundaryFrom_self dual p

/-- The end of the text is always a boundary: a lead byte as the final
byte is not followed by a trail byte (`CharAt` reads 0 past the end). -/
lemma dbcs_boundary_length (isLead isTrail : Nat → Bool) (t : List Nat)
    (hT0 : isTrail 0 = false) :
    dbcsIsBoundary (isDBCSDualByteAt isLead isTrail t) t.length = true := by
  apply dbcsIsBoundary_of_no_overshoot
  intro p hp
  unfold dbcsNextChar
  split
  · rename_i hdual
    by_cases hpe : p + 1 < t.length
    · omega
    · exfalso
      have hz : byteAt t (p + 1) = 0 := by
        unfold byteAt
        rw [List.getD_eq_default]
        omega
      simp only [isDBCSDualByteAt, Bool.and_eq_true] at hdual
      rw [hz, hT0] at hdual
      exact Bool.noConfusion hdual.2
  · omega

lemma dbcsWalkLoop_eq (dual : Nat → Bool) (pos : Nat) (moveDir : Int)
    (posCheck : Nat) :
    dbcsWalkLoop dual pos moveDir posCheck =
      if posCheck < pos then
        let mb := if dual posCheck then 2 else 1
        if posCheck + mb = pos then pos
        else if pos < posCheck + mb then
          if 0 < moveDir then posCheck + mb else posCheck
        else dbcsWalkLoop dual pos moveDir (posCheck + mb)
      else pos := by
  rw [dbcsWalkLoop]

/-- The DBCS walk from a boundary returns a boundary; it lands at or after
`pos` when moving forward, at or before `pos` when moving backward, and is
either `pos` itself or an edge of a two-byte character. -/
lemma dbcsWalkLoop_spec (dual : Nat → Bool) (pos : Nat) (moveDir : Int) :
    ∀ n posCheck, pos - posCheck ≤ n → posCheck ≤ pos →
      dbcsIsBoundary dual posCheck = true →
      dbcsIsBoundary dual (dbcsWalkLoop dual pos moveDir posCheck) = true ∧
      (0 < moveDir → pos ≤ dbcsWalkLoop dual pos moveDir posCheck) ∧
      (¬0 < moveDir → dbcsWalkLoop dual pos moveDir posCheck ≤ pos) ∧
      (dbcsWalkLoop dual pos moveDir posCheck = pos ∨
        (∃ q, dual q = true ∧
          (dbcsWalkLoop dual pos moveDir posCheck = q + 2 ∨
           (dbcsWalkLoop dual pos moveDir posCheck = q ∧ q < pos)))) := by
  intro n
  induction n with
  | zero =>
    intro posCheck hn hle hb
    have : posCheck = pos := by omega
    subst this
    rw [dbcsWalkLoop_eq, if_neg (by omega)]
    exact ⟨hb, fun _ => le_rfl, fun _ => le_rfl, Or.inl rfl⟩
  | succ n ih =>
    intro posCheck hn hle hb
    by_cases hlt : posCheck < pos
    · have hnext : dbcsNextChar dual posCheck =
          posCheck + (if dual posCheck then 2 else 1) := rfl
      have hbnext : dbcsIsBoundary dual
          (posCheck + (if dual posCheck then 2 else 1)) = true := by
        rw [← hnext]
        exact dbcsBoundaryFrom_next dual posCheck 0
          posCheck (by omega) hb
      rw [dbcsWalkLoop_eq, if_pos hlt]
      by_cases heq : posCheck + (if dual posCheck then 2 else 1) = pos
      · rw [if_pos heq]
        exact ⟨heq ▸ hbnext, fun _ => le_rfl, fun _ => le_rfl, Or.inl rfl⟩
      · rw [if_neg heq]
        by_cases hover : pos < posCheck + (if dual posCheck then 2 else 1)
        · rw [if_pos hover]
          have hdual : dual posCheck = true := by
            cases hd : dual posCheck with
            | true => rfl
            | false => rw [hd] at hover; simp at hover; omega
          rw [hdual] at hover heq hbnext
          simp only [if_pos] at hover heq hbnext
          by_cases hdir : 0 < moveDir
          · rw [if_pos hdir, hdual]
            simp only [if_pos]
            exact ⟨hbnext, fun _ => by omega, fun h => absurd hdir h,
              Or.inr ⟨posCheck, hdual, Or.inl rfl⟩⟩
          · rw [if_neg hdir]
            exact ⟨hb, fun h => absurd h hdir, fun _ => by omega,
              Or.inr ⟨posCheck, hdual, Or.inr ⟨rfl, hlt⟩⟩⟩
        · rw [if_neg hover]
          have hstep : 1 ≤ (if dual posCheck then 2 else 1) := by
            split <;> omega
          exact ih (posCheck + (if dual posCheck then 2 else 1))
            (by omega) (by omega) hbnext
    · rw [dbcsWalkLoop_eq, if_neg hlt]
      have : posCheck = pos := by omega
      subst this
      exact ⟨hb, fun _ => le_rfl, fun _ => le_rfl, Or.inl rfl⟩

lemma byteAt_length (t : List Nat) : byteAt t t.length = 0 := by
  unfold byteAt
  rw [List.getD_eq_default]
  exact le_rfl

lemma splitsCrLf_of_not_isCrLf {t : List Nat} {pos : Nat} (h1 : 1 ≤ pos)
    (h2 : pos ≤ t.length) (h : isCrLf t (pos - 1) = false) :
    splitsCrLf t pos = false := by
  cases hc : splitsCrLf t pos with
  | false => rfl
  | true =>
    exfalso
    simp only [splitsCrLf, Bool.and_eq_true, decide_eq_true_eq] at hc
    obtain ⟨⟨-, h13⟩, h10⟩ := hc
    have hcr : isCrLf t (pos - 1) = true := by
      simp only [isCrLf, Bool.and_eq_true, decide_eq_true_eq]
      rw [show pos - 1 + 1 = pos by omega]
      exact ⟨⟨by omega, h13⟩, h10⟩
    rw [hcr] at h
    cases h

/-- C2: for every `pos` in [0, Length], `MovePositionOutsideChar` returns
a character boundary of the document's encoding (it never splits a
multi-byte UTF-8 or DBCS character), with `checkLineEnd` it never splits a
CR-LF pair, it moves forward for `moveDir > 0` and backward for
`moveDir < 0` and clamps the two ends to themselves. -/
theorem movePositionOutsideChar_boundary (t : List Nat) (enc : Encoding)
    (pos : Nat) (moveDir : Int) (checkLineEnd : Bool)
    (hpos : pos ≤ t.length) (hsane : EncSane enc) :
    onCharBoundary t enc
        (movePositionOutsideChar t enc pos moveDir checkLineEnd) = true ∧
    (checkLineEnd = true →
      splitsCrLf t (movePositionOutsideChar t enc pos moveDir checkLineEnd)
        = false) ∧
    (0 < moveDir →
      pos ≤ movePositionOutsideChar t enc pos moveDir checkLineEnd) ∧
    (moveDir < 0 →
      movePositionOutsideChar t enc pos moveDir checkLineEnd ≤ pos) ∧
    (pos = 0 → movePositionOutsideChar t enc pos moveDir checkLineEnd = 0) ∧
    (pos = t.length →
      movePositionOutsideChar t enc pos moveDir checkLineEnd = t.length) := by
  by_cases hz : pos = 0
  · subst hz
    have hr : movePositionOutsideChar t enc 0 moveDir checkLineEnd = 0 := by
      unfold movePositionOutsideChar
      rw [if_pos rfl]
    rw [hr]
    refine ⟨?_, fun _ => by simp [splitsCrLf], fun _ => Nat.zero_le 0,
      fun _ => le_rfl, fun _ => rfl, fun h => h⟩
    cases enc with
    | sbcs => rfl
    | utf8 => simp [onCharBoundary, splitsUTF8]
    | dbcs isLead isTrail => exact dbcsBoundaryFrom_self _ 0
  · by_cases hlen : t.length ≤ pos
    · have hplen : pos = t.length := by omega
      have hr : movePositionOutsideChar t enc pos moveDir checkLineEnd
          = t.length := by
        unfold movePositionOutsideChar
        rw [if_neg hz, if_pos hlen]
      rw [hr]
      refine ⟨?_, fun _ => ?_, fun _ => by omega, fun _ => by omega,
        fun h => absurd h hz, fun _ => rfl⟩
      · cases enc with
        | sbcs => rfl
        | utf8 =>
          simp only [onCharBoundary, Bool.not_eq_true']
          apply not_splitsUTF8_of_not_trail
          rw [byteAt_length]
          rfl
        | dbcs isLead isTrail =>
          exact dbcs_boundary_length isLead isTrail t hsane.2.2
      · simp only [splitsCrLf, byteAt_length]
        simp
    · have hplt : pos < t.length := by omega
      have hp1 : 1 ≤ pos := by omega
      by_cases hcr : checkLineEnd = true ∧ isCrLf t (pos - 1) = true
      · -- the CR-LF snap branch
        obtain ⟨hce, hcrlf⟩ := hcr
        have hcrfacts : pos - 1 < t.length ∧ byteAt t (pos - 1) = 13 ∧
            byteAt t pos = 10 := by
          simp only [isCrLf, Bool.and_eq_true, decide_eq_true_eq] at hcrlf
          obtain ⟨⟨ha, hb⟩, hc⟩ := hcrlf
          rw [show pos - 1 + 1 = pos by omega] at hc
          exact ⟨ha, hb, hc⟩
        obtain ⟨-, h13, h10⟩ := hcrfacts
        by_cases hdir : 0 < moveDir
        · have hr : movePositionOutsideChar t enc pos moveDir checkLineEnd
              = pos + 1 := by
            unfold movePositionOutsideChar
            rw [if_neg hz, if_neg (by omega), if_pos ⟨hce, hcrlf⟩, if_pos hdir]
          rw [hr]
          refine ⟨?_, fun _ => ?_, fun _ => by omega, fun h => absurd hdir (by omega),
            fun h => absurd h hz, fun h => by omega⟩
          · cases enc with
            | sbcs => rfl
            | utf8 =>
              simp only [onCharBoundary, Bool.not_eq_true']
              apply not_splitsUTF8_succ <;> rw [h10] <;> rfl
            | dbcs isLead isTrail =>
              apply dbcs_boundary_of_nonLead
              right
              rw [show pos + 1 - 1 = pos by omega, h10]
              exact hsane.1
          · simp only [splitsCrLf, Nat.add_sub_cancel, h10]
            simp
        · have hr : movePositionOutsideChar t enc pos moveDir checkLineEnd
              = pos - 1 := by
            unfold movePositionOutsideChar
            rw [if_neg hz, if_neg (by omega), if_pos ⟨hce, hcrlf⟩, if_neg hdir]
          rw [hr]
          refine ⟨?_, fun _ => ?_, fun h => absurd h hdir, fun _ => by omega,
            fun h => absurd h hz, fun h => absurd h (by omega)⟩
          · cases enc with
            | sbcs => rfl
            | utf8 =>
              simp only [onCharBoundary, Bool.not_eq_true']
              apply not_splitsUTF8_of_not_trail
              rw [h13]
              rfl
            | dbcs isLead isTrail =>
              cases hb : dbcsIsBoundary (isDBCSDualByteAt isLead isTrail t)
                  (pos - 1) with
              | true => exact hb
              | false =>
                exfalso
                obtain ⟨b, hb1, hb2, -⟩ := dbcsBoundaryFrom_gap
                  (isDBCSDualByteAt isLead isTrail t) (pos - 1) 0 (pos - 1)
                  (by omega) (by omega) hb
                simp only [isDBCSDualByteAt, Bool.and_eq_true] at hb2
                rw [show b + 1 = pos - 1 by omega] at hb2
                rw [h13, hsane.2.1] at hb2
                exact Bool.noConfusion hb2.2
          · simp only [splitsCrLf, h13]
            rw [show pos - 1 = pos - 1 by rfl]
            have : byteAt t (pos - 1) = 13 := h13
            simp [this]
      · -- no CR-LF snap: the per-encoding body
        have hsk : ¬(checkLineEnd = true ∧ isCrLf t (pos - 1) = true) := hcr
        have hnotsplit_pos : checkLineEnd = true → splitsCrLf t pos = false := by
          intro hce
          apply splitsCrLf_of_not_isCrLf hp1 hpos
          cases hv : isCrLf t (pos - 1) with
          | false => rfl
          | true => exact absurd ⟨hce, hv⟩ hsk
        cases enc with
        | sbcs =>
          have hr : movePositionOutsideChar t .sbcs pos moveDir checkLineEnd
              = pos := by
            unfold movePositionOutsideChar
            rw [if_neg hz, if_neg (by omega), if_neg hsk]
          rw [hr]
          exact ⟨rfl, hnotsplit_pos, fun _ => le_rfl, fun _ => le_rfl,
            fun h => absurd h hz, fun h => absurd h (by omega)⟩
        | utf8 =>
          by_cases htr : utf8IsTrailByte (byteAt t pos) = true
          · cases hg : inGoodUTF8 t pos with
            | none =>
              have hr : movePositionOutsideChar t .utf8 pos moveDir checkLineEnd
                  = pos := by
                unfold movePositionOutsideChar
                rw [if_neg hz, if_neg (by omega), if_neg hsk]
                simp only [htr, if_pos, hg]
              rw [hr]
              refine ⟨?_, hnotsplit_pos, fun _ => le_rfl, fun _ => le_rfl,
                fun h => absurd h hz, fun h => absurd h (by omega)⟩
              simp only [onCharBoundary, Bool.not_eq_true']
              exact inGoodUTF8_none_not_splits hg
            | some se =>
              obtain ⟨s, e⟩ := se
              obtain ⟨hm, he, hple, hsle⟩ := inGoodUTF8_some hg
              have hw2 := (utf8MultiAt_width hm).1
              have hslt : s < pos := by
                rcases Nat.lt_or_ge s pos with h | h
                · exact h
                · exfalso
                  have : s = pos := by omega
                  subst this
                  rw [utf8MultiAt_not_trail_lead hm] at htr
                  exact Bool.noConfusion htr
              have hpe : pos < e := by omega
              by_cases hdir : 0 < moveDir
              · have hr : movePositionOutsideChar t .utf8 pos moveDir
                    checkLineEnd = e := by
                  unfold movePositionOutsideChar
                  rw [if_neg hz, if_neg (by omega), if_neg hsk]
                  simp only [htr, if_pos, hg, hdir, if_true]
                rw [hr]
                refine ⟨?_, fun _ => ?_, fun _ => by omega,
                  fun h => absurd hdir (by omega), fun h => absurd h hz,
                  fun h => absurd h (by omega)⟩
                · simp only [onCharBoundary, Bool.not_eq_true']
                  rw [he]
                  exact utf8MultiAt_not_split_end hm
                · have htrl := utf8MultiAt_trail hm
                    (utf8BytesOfLead (byteAt t s) - 1) (by omega) (by omega)
                  obtain ⟨hlo, hhi⟩ := utf8IsTrailByte_range htrl
                  simp only [splitsCrLf, he]
                  rw [show s + utf8BytesOfLead (byteAt t s) - 1 =
                    s + (utf8BytesOfLead (byteAt t s) - 1) by omega]
                  have hne : ¬(byteAt t (s + (utf8BytesOfLead (byteAt t s) - 1))
                      = 13) := by omega
                  simp [hne]
              · have hr : movePositionOutsideChar t .utf8 pos moveDir
                    checkLineEnd = s := by
                  unfold movePositionOutsideChar
                  rw [if_neg hz, if_neg (by omega), if_neg hsk]
                  simp only [htr, if_pos, hg, hdir, if_false]
                rw [hr]
                refine ⟨?_, fun _ => ?_, fun h => absurd h hdir,
                  fun _ => by omega, fun h => absurd h hz,
                  fun h => absurd h (by omega)⟩
                · simp only [onCharBoundary, Bool.not_eq_true']
                  exact utf8MultiAt_not_split_start hm
                · have hlead := utf8MultiAt_lead hm
                  have hne : ¬(byteAt t s = 10) := by omega
                  simp [splitsCrLf, hne]
          · have htr' : utf8IsTrailByte (byteAt t pos) = false := by
              cases h : utf8IsTrailByte (byteAt t pos) with
              | false => rfl
              | true => exact absurd h htr
            have hr : movePositionOutsideChar t .utf8 pos moveDir checkLineEnd
                = pos := by
              unfold movePositionOutsideChar
              rw [if_neg hz, if_neg (by omega), if_neg hsk]
              simp only [htr', if_false, Bool.false_eq_true]
            rw [hr]
            refine ⟨?_, hnotsplit_pos, fun _ => le_rfl, fun _ => le_rfl,
              fun h => absurd h hz, fun h => absurd h (by omega)⟩
            simp only [onCharBoundary, Bool.not_eq_true']
            exact not_splitsUTF8_of_not_trail htr'
        | dbcs isLead isTrail =>
          obtain ⟨hL10, hT13, hT0⟩ := hsane
          have hr : movePositionOutsideChar t (.dbcs isLead isTrail) pos
              moveDir checkLineEnd =
              dbcsWalkLoop (isDBCSDualByteAt isLead isTrail t) pos moveDir
                (dbcsBackScan isLead t pos) := by
            unfold movePositionOutsideChar
            rw [if_neg hz, if_neg (by omega), if_neg hsk]
          rw [hr]
          have hbs := dbcsBackScan_le isLead t pos
          have hb0 := dbcs_boundary_of_nonLead isLead isTrail t
            (dbcsBackScan isLead t pos) (dbcsBackScan_nonLead isLead t pos)
          obtain ⟨hbound, hfwd, hbwd, hform⟩ :=
            dbcsWalkLoop_spec (isDBCSDualByteAt isLead isTrail t) pos moveDir
              pos (dbcsBackScan isLead t pos) (by omega) hbs hb0
          refine ⟨hbound, fun hce => ?_, hfwd, fun h => hbwd (by omega),
            fun h => absurd h hz, fun h => absurd h (by omega)⟩
          rcases hform with hform | ⟨q, hdq, hform | ⟨hform, hqlt⟩⟩
          · rw [hform]
            exact hnotsplit_pos hce
          · rw [hform]
            simp only [isDBCSDualByteAt, Bool.and_eq_true] at hdq
            have hne : ¬(byteAt t (q + 1) = 13) := by
              intro hbyte
              rw [hbyte, hT13] at hdq
              exact Bool.noConfusion hdq.2
            simp [splitsCrLf, hne]
          · rw [hform]
            simp only [isDBCSDualByteAt, Bool.and_eq_true] at hdq
            have hne : ¬(byteAt t q = 10) := by
              intro hbyte
              rw [hbyte, hL10] at hdq
              exact Bool.noConfusion hdq.1
            simp [splitsCrLf, hne]

/-- Witness for `movePositionOutsideChar_boundary`: UTF-8 text "a一b"
(the CJK character spans bytes 1-3), snapping position 2 forward. -/
theorem movePositionOutsideChar_boundary_witness :
    2 ≤ ([97, 228, 184, 128, 98] : List Nat).length ∧ EncSane .utf8 ∧
    (onCharBoundary [97, 228, 184, 128, 98] .utf8
        (movePositionOutsideChar [97, 228, 184, 128, 98] .utf8 2 1 true)
        = true ∧
      (true = true →
        splitsCrLf [97, 228, 184, 128, 98]
          (movePositionOutsideChar [97, 228, 184, 128, 98] .utf8 2 1 true)
          = false) ∧
      ((0 : Int) < 1 →
        2 ≤ movePositionOutsideChar [97, 228, 184, 128, 98] .utf8 2 1 true) ∧
      ((1 : Int) < 0 →
        movePositionOutsideChar [97, 228, 184, 128, 98] .utf8 2 1 true ≤ 2) ∧
      (2 = 0 →
        movePositionOutsideChar [97, 228, 184, 128, 98] .utf8 2 1 true = 0) ∧
      (2 = ([97, 228, 184, 128, 98] : List Nat).length →
        movePositionOutsideChar [97, 228, 184, 128, 98] .utf8 2 1 true
          = ([97, 228, 184, 128, 98] : List Nat).length)) :=
  ⟨by decide, trivial,
    movePositionOutsideChar_boundary [97, 228, 184, 128, 98] .utf8 2 1 true
      (by decide) trivial⟩

/-! ## Brace matching (`BraceOpposite`, `Document::BraceMatch`) -/

/-- `BraceOpposite`: the partner of a brace character, computed by
arithmetic on the ASCII codes (`'(' + ')' - ch`, `('[' + ']' + (ch & 32)*2)
- ch`, `'<' + '>' - ch`); 0 for a non-brace. -/
def braceOpposite (ch : Nat) : Nat :=
  if ch = 40 ∨ ch = 41 then 40 + 41 - ch
  else if ch = 91 ∨ ch = 93 ∨ ch = 123 ∨ ch = 125 then
    (91 + 93 + (ch &&& 32) * 2) - ch
  else if ch = 60 ∨ ch = 62 then 60 + 62 - ch
  else 0

/-- A document with style bytes: text, per-byte styles and the styled
watermark (`GetEndStyled`). -/
structure StyledDoc where
  text : List Nat
  styles : List Nat
  endStyled : Nat

/-- `Document::StyleIndexAt` (style byte, 0 out of range). -/
def styleAt (d : StyledDoc) (pos : Nat) : Nat := d.styles.getD pos 0

/-- The scalar scan loop of `Document::BraceMatch` (the SIMD fast paths
are conditionally compiled optimizations over the same loop; the scalar
loop alone runs whenever `position + 64*direction` is out of range, as on
every document in this file).  Walks while the index is valid; a byte
equal to the brace or its partner counts when its style matches (or lies
past `endStyled`) and, for bytes above the encoding's safe ceiling, when
it sits on a character boundary; depth reaching 0 returns the position.
`fuel` bounds the number of byte steps; `t.length + 1` always suffices. -/
def braceLoop (d : StyledDoc) (enc : Encoding) (safeChar : Nat)
    (chBrace chSeek styBrace : Nat) (direction : Int) :
    Nat → Int → Int → Int
  | 0, _, _ => -1
  | fuel + 1, position, depth =>
    if 0 ≤ position ∧ position < (d.text.length : Int) then
      let chAtPos := byteAt d.text position.toNat
      if chAtPos = chBrace ∨ chAtPos = chSeek then
        if ((d.endStyled : Int) < position ∨ styleAt d position.toNat = styBrace) ∧
            (chAtPos ≤ safeChar ∨
              position = (movePositionOutsideChar d.text enc position.toNat
                direction false : Nat)) then
          let depth' := if chAtPos = chBrace then depth + 1 else depth - 1
          if depth' = 0 then position
          else braceLoop d enc safeChar chBrace chSeek styBrace direction fuel
            (position + direction) depth'
        else braceLoop d enc safeChar chBrace chSeek styBrace direction fuel
          (position + direction) depth
      else braceLoop d enc safeChar chBrace chSeek styBrace direction fuel
        (position + direction) depth
    else -1

/-- `Document::BraceMatch(position, maxReStyle, startPos, useStartPos)`:
look up the brace and its partner, pick the direction from the ASCII
comparison (+1 from an opener, -1 from a closer), and scan. -/
def braceMatch (d : StyledDoc) (enc : Encoding) (safeChar : Nat)
    (position : Nat) (startPos : Int) (useStartPos : Bool) : Int :=
  let chBrace := byteAt d.text position
  let chSeek := braceOpposite chBrace
  if chSeek = 0 then -1
  else
    let styBrace := styleAt d position
    let direction : Int := if chBrace < chSeek then 1 else -1
    let start : Int := if useStartPos then startPos else (position : Int) + direction
    braceLoop d enc safeChar chBrace chSeek styBrace direction
      (d.text.length + 1) start 1

/-- The document "(a(b)c)", all bytes styled 0, fully styled. -/
def parenDoc : StyledDoc :=
  { text := [40, 97, 40, 98, 41, 99, 41], styles := [0, 0, 0, 0, 0, 0, 0],
    endStyled := 7 }

/-- C7: `BraceMatch` pairs each of `()[]{}<>` with the partner the ASCII
arithmetic of `BraceOpposite` gives, searches forward from an opener
(brace below its partner) and backward from a closer, returns -1 for a
non-brace, and on "(a(b)c)" with uniform styles matches 0 ↔ 6 and
2 ↔ 4. -/
theorem braceMatch_spec :
    (braceOpposite 40 = 41 ∧ braceOpposite 41 = 40 ∧
     braceOpposite 91 = 93 ∧ braceOpposite 93 = 91 ∧
     braceOpposite 123 = 125 ∧ braceOpposite 125 = 123 ∧
     braceOpposite 60 = 62 ∧ braceOpposite 62 = 60 ∧
     40 < braceOpposite 40 ∧ braceOpposite 41 < 41 ∧
     91 < braceOpposite 91 ∧ braceOpposite 93 < 93 ∧
     123 < braceOpposite 123 ∧ braceOpposite 125 < 125 ∧
     60 < braceOpposite 60 ∧ braceOpposite 62 < 62) ∧
    (∀ (d : StyledDoc) (enc : Encoding) (safeChar position : Nat)
        (startPos : Int) (useStartPos : Bool),
      braceOpposite (byteAt d.text position) = 0 →
      braceMatch d enc safeChar position startPos useStartPos = -1) ∧
    (braceMatch parenDoc .utf8 127 0 0 false = 6 ∧
     braceMatch parenDoc .utf8 127 2 0 false = 4) := by
  refine ⟨by decide, ?_, by decide⟩
  intro d enc safeChar position startPos useStartPos h
  simp [braceMatch, h]

/-- Witness for the quantified non-brace conjunct of `braceMatch_spec`:
position 1 of "(a(b)c)" holds the letter a. -/
theorem braceMatch_spec_witness :
    braceOpposite (byteAt parenDoc.text 1) = 0 ∧
    braceMatch parenDoc .utf8 127 1 0 false = -1 :=
  ⟨by decide, braceMatch_spec.2.1 parenDoc .utf8 127 1 0 false (by decide)⟩

/-! ## Wrap segmentation (`Document::SafeSegment`)

The character classifier (CharClassify.h/.cxx) and the grapheme tables are
not part of this tree; they are modelled from the spec (§4.4): classes
{space, newline, punctuation, word, cjkWord} with the default byte table
(letters/digits/underscore and bytes ≥ 0x80 word, space/tab/controls
space, CR/LF newline, the rest punctuation); the ordering places
punctuation below word so that the source's `cc >= punctuation` test means
"word or punctuation", as the word-edge logic requires. -/

/-- Character classes, in the fork's comparison order. -/
inductive CharacterClass where
  | space
  | newLine
  | punctuation
  | word
  | cjkWord
deriving DecidableEq, Repr

/-- Numeric rank backing the `>=` comparisons on `CharacterClass`. -/
def ccRank : CharacterClass → Nat
  | .space => 0
  | .newLine => 1
  | .punctuation => 2
  | .word => 3
  | .cjkWord => 4

/-- ASCII letters and digits. -/
def isAlphaNumeric (b : Nat) : Bool :=
  decide ((48 ≤ b ∧ b ≤ 57) ∨ (65 ≤ b ∧ b ≤ 90) ∨ (97 ≤ b ∧ b ≤ 122))

/-- Modelled from the spec: the classifier's default per-byte table
(`CharClassify::SetDefaultCharClasses`). -/
def getClass (b : Nat) : CharacterClass :=
  if b = 13 ∨ b = 10 then .newLine
  else if b < 32 ∨ b = 32 then .space
  else if 128 ≤ b ∨ isAlphaNumeric b = true ∨ b = 95 then .word
  else .punctuation

/-- Modelled from the spec: `IsBreakSpace` treats space and the C0
controls as break points (bytes ≥ 0x80 are negative as `char`). -/
def isBreakSpace (b : Nat) : Bool := decide (b ≤ 32)

/-- Grapheme break properties, reduced to what the break test consumes.
Modelled from the spec: the full Unicode table is external; combining
marks and the zero-width joiner extend a cluster, everything else starts
one.  `BackwardSentinel` seeds the backward scan. -/
inductive GraphemeBreakProperty where
  | Other
  | Extend
  | BackwardSentinel
deriving DecidableEq, Repr

/-- Modelled from the spec: combining marks (U+0300..U+036F) and ZWJ
extend; all other code points are cluster starts. -/
def getGraphemeBreakProperty (ch : Nat) : GraphemeBreakProperty :=
  if (768 ≤ ch ∧ ch ≤ 879) ∨ ch = 8205 then .Extend else .Other

/-- Modelled from the spec: a cluster boundary lies between two
characters unless the later one extends the cluster or the earlier one is
itself an extender being skipped. -/
def isGraphemeClusterBoundary :
    GraphemeBreakProperty → GraphemeBreakProperty → Bool
  | _, .Extend => false
  | .Extend, _ => false
  | _, _ => true

/-- `UnicodeFromUTF8`: decode the code point starting at `s` (standard
UTF-8 arithmetic; UniConversion.h is not part of this tree). -/
def unicodeFromUTF8 (t : List Nat) (s : Nat) : Nat :=
  let b0 := byteAt t s
  if b0 < 128 then b0
  else if b0 < 224 then (b0 - 192) * 64 + (byteAt t (s + 1) - 128)
  else if b0 < 240 then
    (b0 - 224) * 4096 + (byteAt t (s + 1) - 128) * 64 + (byteAt t (s + 2) - 128)
  else
    (b0 - 240) * 262144 + (byteAt t (s + 1) - 128) * 4096 +
      (byteAt t (s + 2) - 128) * 64 + (byteAt t (s + 3) - 128)

/-- `UTF8Classify(ptr, len)` reduced to its two outputs: `some width` for
a valid character that fits in `avail` bytes, `none` for an invalid one. -/
def utf8ClassifyAt (t : List Nat) (s avail : Nat) : Option Nat :=
  let b0 := byteAt t s
  if b0 < 128 then some 1
  else
    let w := utf8BytesOfLead b0
    if 2 ≤ w ∧ w ≤ avail ∧ utf8ValidSeq t s = true then some w else none

/-- The inner scan of `DiscardLastCombinedCharacter`: step back over at
most three continuation bytes (`trail` runs 1..3 below `UTF8MaxBytes`),
not crossing `e`. -/
def backOverTrails (t : List Nat) (e : Nat) : Nat → Nat → Nat
  | it, 0 => it
  | it, k + 1 =>
    if it ≠ e ∧ utf8IsTrailByte (byteAt t it) = true then
      backOverTrails t e (it - 1) k
    else it

/-- Modelled from the spec: the longest composed character sequence the
scan bothers to inspect (the exact constant only bounds how far back the
grapheme scan may look). -/
def longestUnicodeCharacterSequenceBytes : Nat := 31

/-- The body of `DiscardLastCombinedCharacter`'s do-while.  `orig` is the
incoming `lengthSegment`, returned unchanged when the loop runs out;
breaking returns `prev`, the start of the previously inspected character.
`fuel` bounds the iterations (`it + 1` suffices as `it` decreases). -/
def discardLoop (t : List Nat) (e back orig : Nat) :
    Nat → Nat → GraphemeBreakProperty → Nat → Nat
  | 0, _, _, _ => orig
  | fuel + 1, it, next, prev =>
    let it1 := backOverTrails t e it 3
    match utf8ClassifyAt t it1 (back - it1) with
    | none => prev
    | some _ =>
      let current := getGraphemeBreakProperty (unicodeFromUTF8 t it1)
      if isGraphemeClusterBoundary current next then prev
      else if e < it1 - 1 then
        discardLoop t e back orig fuel (it1 - 1) current it1
      else orig

/-- `Document::DiscardLastCombinedCharacter(text, lengthSegment,
lenBytes)`: back away from `lengthSegment` until a grapheme cluster
boundary, inspecting at most the last `longest` bytes. -/
def discardLastCombinedCharacter (t : List Nat)
    (lengthSegment lenBytes : Nat) : Nat :=
  let longest := longestUnicodeCharacterSequenceBytes + 4
  let e := if longest < lengthSegment then lengthSegment - longest else 0
  discardLoop t e lenBytes lengthSegment (lengthSegment + 1) lengthSegment
    .BackwardSentinel lengthSegment

/-- The space scan opening `SafeSegment`: check `lengthSegment` down to 1
(position 0 is never checked; the do-while exits when the cursor reaches
the text start). -/
def spaceScan (t : List Nat) : Nat → Option Nat
  | 0 => if isBreakSpace (byteAt t 0) then some 0 else none
  | it + 1 =>
    if isBreakSpace (byteAt t (it + 1)) then some (it + 1)
    else if it = 0 then none
    else spaceScan t it

/-- The backward class scan of `SafeSegment` (UTF-8 and single-byte):
walk down from `lengthSegment`, returning one past the first position
whose class differs from the class at `lengthSegment`. -/
def classScan (ccf : Nat → CharacterClass) (t : List Nat)
    (ccPrev : CharacterClass) : Nat → Option Nat
  | 0 => none
  | j + 1 =>
    if ccf (byteAt t j) ≠ ccPrev then some (j + 1)
    else classScan ccf t ccPrev j

/-- The trail-byte discard at the end of `SafeSegment`'s UTF-8 branch:
step back while the byte is a continuation byte. -/
def backWhileTrail (t : List Nat) : Nat → Nat
  | 0 => 0
  | it + 1 =>
    if utf8IsTrailByte (byteAt t (it + 1)) = true then backWhileTrail t it
    else it + 1

/-- The encoding families `SafeSegment` distinguishes. -/
inductive EncodingFamily where
  | eightBit
  | unicode
  | dbcsFam (isLead : Nat → Bool)

/-- Whether the family is the single-byte one. -/
def EncodingFamily.isEightBit : EncodingFamily → Bool
  | .eightBit => true
  | _ => false

/-- The forward DBCS scan of `SafeSegment`: track the last whole-character
offset and the last class-change offset; non-ASCII bytes classify as word
and a lead byte consumes its trail byte.  `fuel` bounds iterations
(`lengthSegment` suffices as `j` grows each step). -/
def dbcsSegLoop (isLead : Nat → Bool) (ccf : Nat → CharacterClass)
    (t : List Nat) (lengthSegment : Nat) :
    Nat → Nat → CharacterClass → Nat → Nat → Nat
  | 0, _, _, lastPB, lastEAB => if lastPB ≠ 0 then lastPB else lastEAB
  | fuel + 1, j, ccPrev, lastPB, _ =>
    let ch := byteAt t j
    let lastEAB' := j
    let j1 := j + 1
    let cc := if utf8IsAscii ch then ccf ch else CharacterClass.word
    let j2 := if utf8IsAscii ch then j1
      else j1 + (if isLead ch then 1 else 0)
    let ccPrev' := if cc ≠ ccPrev then cc else ccPrev
    let lastPB' := if cc ≠ ccPrev then lastEAB' else lastPB
    if j2 < lengthSegment then
      dbcsSegLoop isLead ccf t lengthSegment fuel j2 ccPrev' lastPB' lastEAB'
    else if lastPB' ≠ 0 then lastPB' else lastEAB'

/-- `Document::SafeSegment(text, lengthSegment, encodingFamily)`: prefer a
break at a space or control; then a class transition (backward scan for
UTF-8/single-byte, forward for DBCS); for UTF-8 word/punctuation back away
from a grapheme cluster, and if nothing was discarded drop the trail bytes
of the truncated character. -/
def safeSegment (ccf : Nat → CharacterClass) (t : List Nat)
    (lengthSegment : Nat) (fam : EncodingFamily) : Nat :=
  match spaceScan t lengthSegment with
  | some k => k
  | none =>
    match fam with
    | .dbcsFam isLead =>
      dbcsSegLoop isLead ccf t lengthSegment lengthSegment 0 .space 0 0
    | fam =>
      let ccPrev := ccf (byteAt t lengthSegment)
      let lastPB := (classScan ccf t ccPrev lengthSegment).getD lengthSegment
      if ccRank .punctuation ≤ ccRank ccPrev ∧ fam.isEightBit = false then
        let lastPB2 := discardLastCombinedCharacter t lastPB (lastPB + 4)
        if lastPB2 = lengthSegment then backWhileTrail t lengthSegment
        else lastPB2
      else lastPB

/-- C5: `SafeSegment` in UTF-8 mode breaks "ab cd ef" with budget 6 at 5
(the space before "ef"), and two 3-byte CJK characters followed by "x"
with budget 4 at 3 (after the first whole character) — never 2 or 4. -/
theorem safeSegment_utf8_cases :
    safeSegment getClass [97, 98, 32, 99, 100, 32, 101, 102] 6 .unicode = 5 ∧
    safeSegment getClass [228, 184, 128, 228, 184, 129, 120] 4 .unicode = 3 ∧
    safeSegment getClass [228, 184, 128, 228, 184, 129, 120] 4 .unicode ≠ 2 ∧
    safeSegment getClass [228, 184, 128, 228, 184, 129, 120] 4 .unicode ≠ 4 := by
  refine ⟨?_, ?_, ?_, ?_⟩ <;> decide

/-! ## Reverse regex search (`BuiltinRegex::FindText`, last-match loop) -/

/-- `Document::NextPosition(pos, 1)`: advance one whole character (the
forward case used by the regex loop).  The clamp to the ends comes first;
UTF-8 advances by the width of a valid sequence and one byte past ASCII
or invalid bytes; DBCS advances one or two bytes. -/
def nextPositionForward (t : List Nat) (enc : Encoding) (pos : Nat) : Nat :=
  if t.length ≤ pos + 1 then t.length
  else
    match enc with
    | .sbcs => pos + 1
    | .utf8 =>
      let leadByte := byteAt t pos
      if utf8IsAscii leadByte then pos + 1
      else if 2 ≤ utf8BytesOfLead leadByte ∧ utf8ValidSeq t pos = true then
        pos + utf8BytesOfLead leadByte
      else pos + 1
    | .dbcs isLead isTrail =>
      min (pos + (if isDBCSDualByteAt isLead isTrail t pos then 2 else 1))
        t.length

lemma nextPositionForward_gt {t : List Nat} {enc : Encoding} {pos : Nat}
    (h : pos < t.length) : pos < nextPositionForward t enc pos := by
  unfold nextPositionForward
  by_cases hc : t.length ≤ pos + 1
  · rw [if_pos hc]
    omega
  · rw [if_neg hc]
    cases enc with
    | sbcs => show pos < pos + 1; omega
    | utf8 =>
      show pos < if utf8IsAscii (byteAt t pos) = true then pos + 1
        else if 2 ≤ utf8BytesOfLead (byteAt t pos) ∧ utf8ValidSeq t pos = true
          then pos + utf8BytesOfLead (byteAt t pos) else pos + 1
      split_ifs with h1 h2
      · omega
      · have h2' := h2.1
        omega
      · omega
    | dbcs isLead isTrail =>
      show pos < min
        (pos + if isDBCSDualByteAt isLead isTrail t pos = true then 2 else 1)
        t.length
      apply Nat.lt_min.mpr
      constructor
      · split <;> omega
      · omega

/-- The per-line last-match loop of the built-in regex reverse search
(`BuiltinRegex::FindText`, the `resr.increment < 0` branch).  The abstract
`execute p e` stands for `RESearch::Execute` on `[p, e]` — RESearch.cxx is
not part of this tree; per the spec it reports a match `[b, ep]` inside
the searched range.  The state carries (bopat0, endPos); an empty match
(`pos == bopat[0]`) advances the restart position one whole character via
`NextPosition(pos, 1)`.  `none` means the fuel ran out before the loop
finished. -/
def reLoopFuel (execute : Nat → Nat → Option (Nat × Nat))
    (next : Nat → Nat) (endOfLine : Nat) :
    Nat → Nat × Nat → Option (Nat × Nat)
  | 0, _ => none
  | fuel + 1, (bopat, endPos) =>
    if endPos < endOfLine then
      let pos := endPos
      let pos := if pos = bopat then next pos else pos
      match execute pos endOfLine with
      | some (b, e) => reLoopFuel execute next endOfLine fuel (b, e)
      | none => some (bopat, endPos)
    else some (bopat, endPos)

/-- The termination measure: twice the room left on the line, plus one
when the last match was non-empty. -/
def reMeasure (endOfLine : Nat) (st : Nat × Nat) : Nat :=
  2 * (endOfLine - st.2) + (if st.2 = st.1 then 0 else 1)

/-- C9: in the reverse-direction per-line loop, an empty match advances
the restart position by one whole character (`NextPosition(pos, 1)` is
strictly increasing inside the text), and the loop always terminates:
with fuel `2*(endOfLine - endPos) + 2` it never runs out, for every
abstract `Execute` that reports matches inside the range it is given. -/
theorem reverse_regex_loop_terminates (t : List Nat) (enc : Encoding)
    (execute : Nat → Nat → Option (Nat × Nat)) (endOfLine : Nat)
    (bopat endPos : Nat)
    (hex : ∀ p b e, execute p endOfLine = some (b, e) →
      p ≤ b ∧ b ≤ e ∧ e ≤ endOfLine)
    (heol : endOfLine ≤ t.length)
    (hbe : bopat ≤ endPos) (hee : endPos ≤ endOfLine) :
    reLoopFuel execute (fun p => nextPositionForward t enc p) endOfLine
        (2 * (endOfLine - endPos) + 2) (bopat, endPos) ≠ none ∧
    (∀ p, p < t.length → p < nextPositionForward t enc p) := by
  refine ⟨?_, fun p hp => nextPositionForward_gt hp⟩
  suffices H : ∀ fuel b0 e0, b0 ≤ e0 → e0 ≤ endOfLine →
      reMeasure endOfLine (b0, e0) < fuel →
      reLoopFuel execute (fun p => nextPositionForward t enc p) endOfLine
        fuel (b0, e0) ≠ none by
    apply H _ _ _ hbe hee
    simp only [reMeasure]
    split <;> omega
  intro fuel
  induction fuel with
  | zero =>
    intro b0 e0 hb he hm
    omega
  | succ fuel ih =>
    intro b0 e0 hb he hm
    rw [reLoopFuel]
    by_cases hlt : e0 < endOfLine
    · rw [if_pos hlt]
      simp only
      by_cases hempty : e0 = b0
      · rw [if_pos hempty]
        cases hx : execute (nextPositionForward t enc e0) endOfLine with
        | none => simp
        | some be =>
          obtain ⟨b1, e1⟩ := be
          obtain ⟨hx1, hx2, hx3⟩ := hex _ _ _ hx
          have hadv : e0 < nextPositionForward t enc e0 :=
            nextPositionForward_gt (by omega)
          simp only
          apply ih b1 e1 (by omega) (by omega)
          simp only [reMeasure] at hm ⊢
          rw [if_pos hempty] at hm
          split <;> omega
      · rw [if_neg hempty]
        cases hx : execute e0 endOfLine with
        | none => simp
        | some be =>
          obtain ⟨b1, e1⟩ := be
          obtain ⟨hx1, hx2, hx3⟩ := hex _ _ _ hx
          simp only
          apply ih b1 e1 (by omega) (by omega)
          simp only [reMeasure] at hm ⊢
          rw [if_neg hempty] at hm
          split <;> omega
    · rw [if_neg hlt]
      simp

/-- Witness for `reverse_regex_loop_terminates` at a concrete document,
line range and engine. -/
theorem reverse_regex_loop_terminates_witness :
    reLoopFuel (fun _ _ => none)
        (fun p => nextPositionForward [97, 98, 99] .utf8 p) 3
        (2 * (3 - 0) + 2) (0, 0) ≠ none :=
  (reverse_regex_loop_terminates [97, 98, 99] .utf8 (fun _ _ => none) 3 0 0
    (fun _ _ _ h => Option.noConfusion h) (by decide) (by decide)
    (by decide)).1

end Notepad4
